import Mathlib

/-! # png2ico: PNG header reader and ICO container writer

A shallow embedding of `src/png2ico.cpp` and the properties of its two
components that the specification states.

Conventions of the embedding.

* A byte (`uint8_t`) is a `Fin 256`; a file, a `std::vector<uint8_t>` and the
  byte stream written to the output are lists of bytes.
* `uint16_t` and `uint32_t` values are natural numbers; every store into such
  a variable is reduced `% 2 ^ 16` or `% 2 ^ 32` explicitly.
* The host is little-endian (the program writes its structs to the file with
  `reinterpret_cast<char*>` and byte-swaps what it reads from the PNG), so a
  struct is serialised field by field, least significant byte first.
  `icon_header` (3 x u16) and `icon_entry` (4 x u8, 2 x u16, 2 x u32) have no
  padding: their sizes are 6 and 16.
* `exit(-1)` is an `Except.error` carrying which diagnostic was printed.
-/

namespace Png2Ico

/-! ## Data model -/

/-- One byte. -/
abbrev uint8_t := Fin 256

/-- Signature length: `constexpr auto PNG_HEADER_SIZE = 8`. -/
def PNG_HEADER_SIZE : Nat := 8

/-- Length of the chunk preamble that is skipped: `constexpr auto PNG_CHUNK_SIZE = 8`. -/
def PNG_CHUNK_SIZE : Nat := 8

/-- The struct `png_image`: decoded width and height, and the whole png file. -/
structure png_image where
  width : Nat
  height : Nat
  buffer : List uint8_t
deriving DecidableEq, Repr

/-- Resource type of an icon: `constexpr auto ICO_RESOURCE_TYPE = 1`. -/
def ICO_RESOURCE_TYPE : Nat := 1

/-- The struct `icon_header` (three `uint16_t` fields). -/
structure icon_header where
  reserved : Nat
  type : Nat
  count : Nat
deriving DecidableEq, Repr

/-- The struct `icon_entry` (four `uint8_t`, two `uint16_t`, two `uint32_t` fields). -/
structure icon_entry where
  width : Nat
  height : Nat
  color_count : Nat
  reserved : Nat
  planes : Nat
  bit_count : Nat
  size : Nat
  offset : Nat
deriving DecidableEq, Repr

/-- The value `sizeof(icon_header)`. -/
def sizeof_icon_header : Nat := 6

/-- The value `sizeof(icon_entry)`. -/
def sizeof_icon_entry : Nat := 16

/-! ## Memory representation of integers on the little-endian host -/

/-- The byte holding `v % 256`. -/
def byte_of (v : Nat) : uint8_t := ⟨v % 256, Nat.mod_lt v (by decide)⟩

/-- Object representation of a `uint8_t` field. -/
def le_uint8 (v : Nat) : List uint8_t := [byte_of v]

/-- Object representation of a `uint16_t` field: 2 bytes, least significant first. -/
def le_uint16 (v : Nat) : List uint8_t := [byte_of v, byte_of (v / 256)]

/-- Object representation of a `uint32_t` field: 4 bytes, least significant first. -/
def le_uint32 (v : Nat) : List uint8_t :=
  [byte_of v, byte_of (v / 256), byte_of (v / 65536), byte_of (v / 16777216)]

/-- Value of a byte sequence read as a little-endian unsigned integer: the value an
integer object has when these are the bytes of its object representation. -/
def le_decode : List uint8_t → Nat
  | [] => 0
  | b :: bs => b.val + 256 * le_decode bs

/-- The bytes `reinterpret_cast<char*>(&header)` points to, `sizeof(header)` of them. -/
def icon_header.bytes (h : icon_header) : List uint8_t :=
  le_uint16 h.reserved ++ le_uint16 h.type ++ le_uint16 h.count

/-- The bytes `reinterpret_cast<char*>(&entry)` points to, `sizeof(entry)` of them. -/
def icon_entry.bytes (e : icon_entry) : List uint8_t :=
  le_uint8 e.width ++ le_uint8 e.height ++ le_uint8 e.color_count ++ le_uint8 e.reserved ++
    le_uint16 e.planes ++ le_uint16 e.bit_count ++ le_uint32 e.size ++ le_uint32 e.offset

/-! ## The PNG header reader -/

/-- The function `swap_uint32` on a 32-bit value; the left shifts are reduced to 32 bits. -/
def swap_uint32 (value : Nat) : Nat :=
  let value := (((value <<< 8) % 2 ^ 32) &&& 0xFF00FF00) ||| ((value >>> 8) &&& 0xFF00FF)
  ((value <<< 16) % 2 ^ 32) ||| (value >>> 16)

/-- Contents of a local array or integer object: the byte at each index of its
object representation. -/
abbrev memory := Nat → uint8_t

/-- The first `n` bytes of an object. -/
def memory.bytes (m : memory) (n : Nat) : List uint8_t := (List.range n).map m

/-- Copy `got` to the start of an object; the bytes after it keep what they held. -/
def memory.store (m : memory) (got : List uint8_t) : memory := fun i => got.getD i (m i)

/-- Value of a `uint32_t` object with the given object representation. -/
def load_uint32 (m : memory) : Nat := le_decode (m.bytes 4)

/-- The library function `memcmp` on two byte sequences of the same length: 0 when they
are equal, else the difference of the first two bytes that differ. -/
def memcmp : List uint8_t → List uint8_t → Int
  | a :: as, b :: bs => if a = b then memcmp as bs else (a.val : Int) - (b.val : Int)
  | _, _ => 0

/-- The local vector `png_signature` of `check_png_signature`. -/
def png_signature : List uint8_t := [0x89, 0x50, 0x4e, 0x47, 0x0d, 0x0a, 0x1a, 0x0a]

/-- The function `check_png_signature`: `memcmp` of the `PNG_HEADER_SIZE` bytes at
`signature` with the png signature. -/
def check_png_signature (signature : memory) : Int :=
  memcmp (signature.bytes PNG_HEADER_SIZE) (png_signature.take PNG_HEADER_SIZE)

/-- State of a `std::ifstream` opened on a file: the file's bytes, the read position and
the two state bits the program can set. -/
structure ifstream where
  file : List uint8_t
  pos : Nat
  failbit : Bool
  eofbit : Bool
deriving DecidableEq, Repr

/-- The call `read(dst, n)`: nothing is read when the stream is not good (and failbit is
set); otherwise the available bytes, at most `n`, are copied to `dst`, and when fewer than
`n` were available both eofbit and failbit are set. -/
def ifstream.read (s : ifstream) (dst : memory) (n : Nat) : ifstream × memory :=
  if s.failbit || s.eofbit then ({ s with failbit := true }, dst)
  else
    let got := (s.file.drop s.pos).take n
    if got.length < n then
      ({ s with pos := s.pos + got.length, failbit := true, eofbit := true }, dst.store got)
    else ({ s with pos := s.pos + n }, dst.store got)

/-- The call `seekg(off, std::ios::cur)` with `off >= 0`: clears eofbit, and moves the
position unless failbit is set. A position past the end of a file is accepted. -/
def ifstream.seekg_cur (s : ifstream) (off : Nat) : ifstream :=
  if s.failbit then { s with eofbit := false }
  else { s with eofbit := false, pos := s.pos + off }

/-- The call `seekg(pos)`: clears eofbit, and sets the position unless failbit is set. -/
def ifstream.seekg (s : ifstream) (pos : Nat) : ifstream :=
  if s.failbit then { s with eofbit := false }
  else { s with eofbit := false, pos := pos }

/-- The range `std::istreambuf_iterator<char>(s), {}`: every byte from the read position
to the end of the file, whatever the state bits are. -/
def ifstream.rest (s : ifstream) : List uint8_t := s.file.drop s.pos

/-- The enumerator `std::ios::beg`, whose value is 0. In `png_file.seekg(std::ios::beg)`
it is the single argument, so it is converted to a stream position. -/
def ios_beg : Nat := 0

/-- Which diagnostic `read_png_file` printed before `exit(-1)`. -/
inductive png_error where
  | unable_to_open_file
  | is_not_a_png_file
  | should_be_square
  | should_be_smaller_than_512
deriving DecidableEq, Repr

/-- What the locals of `read_png_file` that have no initialiser hold when the function
is entered: the array `png_header` and the fields `image.width` and `image.height`. -/
structure uninit where
  png_header : memory
  width : memory
  height : memory

/-- The function `read_png_file`. `file` is the content of the file named `file_name`,
or `none` when it cannot be opened. -/
def read_png_file (u : uninit) (file : Option (List uint8_t)) : Except png_error png_image :=
  match file with
  | none => .error .unable_to_open_file
  | some content =>
    let png_file : ifstream := ⟨content, 0, false, false⟩
    let (png_file, png_header) := png_file.read u.png_header PNG_HEADER_SIZE
    if check_png_signature png_header ≠ 0 then .error .is_not_a_png_file
    else
      let png_file := png_file.seekg_cur PNG_CHUNK_SIZE
      let (png_file, image_width) := png_file.read u.width 4
      let (png_file, image_height) := png_file.read u.height 4
      let width := swap_uint32 (load_uint32 image_width)
      let height := swap_uint32 (load_uint32 image_height)
      if width ≠ height then .error .should_be_square
      else if width > 512 then .error .should_be_smaller_than_512
      else
        let png_file := png_file.seekg ios_beg
        .ok { width := width, height := height, buffer := png_file.rest }

/-! ## The ICO container writer -/

/-- What `write_ico_file` can report before calling `exit(-1)`. Failures of a
write to an opened stream depend on the environment only and are not modelled:
an opened stream accepts every write. -/
inductive ico_error where
  | unable_to_open_file
deriving DecidableEq, Repr

/-- The body of the first loop of `write_ico_file` for one image: the entry
built from `png[i]` and the running `offset`. The conditional stores into the
`uint8_t` fields and the cast of `buffer.size()` to `uint32_t` reduce the
value. -/
def make_entry (p : png_image) (offset : Nat) : icon_entry :=
  { width := (if p.width > 255 then 0 else p.width) % 256
    height := (if p.height > 255 then 0 else p.height) % 256
    color_count := 0
    reserved := 0
    planes := 1
    bit_count := 32
    offset := offset
    size := p.buffer.length % 2 ^ 32 }

/-- First loop of `write_ico_file`, over the images it visits: writes one
entry per image and advances the `uint32_t` running offset by the entry's
size. Returns the bytes written. -/
def write_entries : List png_image → Nat → List uint8_t
  | [], _ => []
  | p :: ps, offset =>
    let entry := make_entry p offset
    entry.bytes ++ write_entries ps ((offset + entry.size) % 2 ^ 32)

/-- Second loop of `write_ico_file`, over the images it visits: writes each
image's buffer. Returns the bytes written. -/
def write_images : List png_image → List uint8_t
  | [] => []
  | p :: ps => p.buffer ++ write_images ps

/-- The function `write_ico_file`. `is_open` says whether the output file could
be opened; the result is the byte stream written to it. Both loops run for
`i = 0 .. header.count - 1` over `png[i]`; since `header.count` is the vector
size reduced to 16 bits it never exceeds the size, so the loops visit exactly
the first `header.count` images. -/
def write_ico_file (is_open : Bool) (png : List png_image) :
    Except ico_error (List uint8_t) :=
  if !is_open then .error .unable_to_open_file
  else
    let header : icon_header :=
      { reserved := 0
        type := ICO_RESOURCE_TYPE
        count := png.length % 2 ^ 16 }
    let offset := (sizeof_icon_header + sizeof_icon_entry * header.count) % 2 ^ 32
    .ok (header.bytes ++ write_entries (png.take header.count) offset ++
      write_images (png.take header.count))

/-! ## Reading an ICO byte stream back (the specification's view of the output) -/

/-- The `n` bytes of `out` starting at absolute offset `pos` (fewer when `out` ends before). -/
def slice (out : List uint8_t) (pos n : Nat) : List uint8_t := (out.drop pos).take n

/-- Little-endian unsigned integer stored in the `n` bytes at offset `pos`,
when the stream has those bytes. -/
def read_le (out : List uint8_t) (pos n : Nat) : Option Nat :=
  if pos + n ≤ out.length then some (le_decode (slice out pos n)) else none

/-- The count field of the header: the 16-bit value at bytes 4..5. -/
def header_count (out : List uint8_t) : Option Nat := read_le out 4 2

/-- The 16 bytes of directory entry `i`. -/
def dir_entry (out : List uint8_t) (i : Nat) : List uint8_t := slice out (6 + 16 * i) 16

/-- The size field of directory entry `i`: the 32-bit value at byte 8 of the entry. -/
def entry_size (out : List uint8_t) (i : Nat) : Option Nat := read_le out (6 + 16 * i + 8) 4

/-- The offset field of directory entry `i`: the 32-bit value at byte 12 of the entry. -/
def entry_offset (out : List uint8_t) (i : Nat) : Option Nat := read_le out (6 + 16 * i + 12) 4

/-- Sum of the byte sizes of a sequence of images. -/
def payload_size (l : List png_image) : Nat := (l.map fun p => p.buffer.length).sum

/-- The payload of directory entry `i` of an ICO byte stream: the bytes in
`[offset, offset + size)` for the offset and size the entry holds, when the stream has
the entry and that range. -/
def decode_payload (out : List uint8_t) (i : Nat) : Option (List uint8_t) :=
  match entry_size out i, entry_offset out i with
  | some size, some offset =>
    if offset + size ≤ out.length then some (slice out offset size) else none
  | _, _ => none

/-- The payloads of the first `n` directory entries, in order. -/
def decode_entries (out : List uint8_t) : Nat → Option (List (List uint8_t))
  | 0 => some []
  | n + 1 =>
    match decode_entries out n, decode_payload out n with
    | some payloads, some payload => some (payloads ++ [payload])
    | _, _ => none

/-- Decoding an ICO byte stream on its own: the count from the header, then the payload
of each of that many directory entries. -/
def decode_ico (out : List uint8_t) : Option (List (List uint8_t)) :=
  match header_count out with
  | some count => decode_entries out count
  | none => none

/-! ## The command line program -/

/-- The files the program can see: the content of each file that can be opened for
reading, and whether a file of a given name can be opened for writing. -/
structure filesystem where
  content : String → Option (List uint8_t)
  can_create : String → Bool

/-- What a run leaves behind: the exit status and, when `write_ico_file` wrote the output
file, its name and bytes. -/
structure outcome where
  status : Int
  written : Option (String × List uint8_t)
deriving DecidableEq, Repr

/-- Limit on the number of inputs: `constexpr auto MAX_ICON_COUNT = 16`. -/
def MAX_ICON_COUNT : Nat := 16

/-- The loop of `main` over the input names: `read_png_file` on each name in order, the
first failure ending the run. `i` numbers the calls; `stack i` is what call `i` finds in
its uninitialised locals. -/
def read_images (stack : Nat → uninit) (fs : filesystem) :
    List String → Nat → Except png_error (List png_image)
  | [], _ => .ok []
  | file_name :: rest, i =>
    match read_png_file (stack i) (fs.content file_name) with
    | .error e => .error e
    | .ok image =>
      match read_images stack fs rest (i + 1) with
      | .error e => .error e
      | .ok png => .ok (image :: png)

/-- The function `main`; `argv` holds the `argc` arguments, program name first. -/
def main (stack : Nat → uninit) (fs : filesystem) (argv : List String) : outcome :=
  let argc := argv.length
  if argc < 3 then ⟨-1, none⟩
  else
    let count := if argc - 2 > MAX_ICON_COUNT then MAX_ICON_COUNT else argc - 2
    match read_images stack fs ((argv.drop 2).take count) 0 with
    | .error _ => ⟨-1, none⟩
    | .ok png =>
      match write_ico_file (fs.can_create (argv.getD 1 "")) png with
      | .error _ => ⟨-1, none⟩
      | .ok out => ⟨0, some (argv.getD 1 "", out)⟩

/-- The calls of `read_png_file` that the loop of `main` makes on the input names: the
names passed to it, in order. The loop ends with the first failing call. -/
def read_images_calls (stack : Nat → uninit) (fs : filesystem) :
    List String → Nat → List String
  | [], _ => []
  | file_name :: rest, i =>
    match read_png_file (stack i) (fs.content file_name) with
    | .error _ => [file_name]
    | .ok _ => file_name :: read_images_calls stack fs rest (i + 1)

/-- The input files a run of `main` passes to `read_png_file`, in order. -/
def main_calls (stack : Nat → uninit) (fs : filesystem) (argv : List String) : List String :=
  let argc := argv.length
  if argc < 3 then []
  else
    let count := if argc - 2 > MAX_ICON_COUNT then MAX_ICON_COUNT else argc - 2
    read_images_calls stack fs ((argv.drop 2).take count) 0

/-! ## Reading a PNG file's header fields (the specification's view of the input) -/

/-- Value of a byte sequence read as a big-endian unsigned integer. -/
def be_decode (l : List uint8_t) : Nat := l.foldl (fun acc b => 256 * acc + b.val) 0

/-- Big-endian 32-bit value in the 4 bytes of `file` at offset `pos`. -/
def be_uint32_at (file : List uint8_t) (pos : Nat) : Nat := be_decode (slice file pos 4)

/-- The image `read_png_file` returns for a file that passes its checks. -/
def image_of (file : List uint8_t) : png_image :=
  ⟨be_uint32_at file 16, be_uint32_at file 20, file⟩

/-! ## Sample inputs -/

/-- A file of `24 + n` bytes: the signature, the preamble of an IHDR chunk, width `w` and
height `h` (each below 256) in big-endian, and `n` further zero bytes. -/
def sample_file (w h : uint8_t) (n : Nat) : List uint8_t :=
  png_signature ++ [0, 0, 0, 13, 73, 72, 68, 82, 0, 0, 0, w, 0, 0, 0, h] ++ List.replicate n 0

/-- A file system with a 500-byte file `a.png` and a 700-byte file `b.png`, both 64 x 64,
in which every output file can be created. -/
def sample_fs : filesystem :=
  { content := fun file_name =>
      if file_name = "a.png" then some (sample_file 64 64 476)
      else if file_name = "b.png" then some (sample_file 64 64 676)
      else none
    can_create := fun _ => true }

/-- Locals that hold zero bytes when a function is entered. -/
def zero_stack : uninit := ⟨fun _ => 0, fun _ => 0, fun _ => 0⟩

/-- A file system in which every name is a 24-byte 64 x 64 file and every output file
can be created. -/
def uniform_fs : filesystem :=
  { content := fun _ => some (sample_file 64 64 0)
    can_create := fun _ => true }

/-- Twenty input names. -/
def twenty_inputs : List String :=
  ["01.png", "02.png", "03.png", "04.png", "05.png", "06.png", "07.png", "08.png", "09.png",
    "10.png", "11.png", "12.png", "13.png", "14.png", "15.png", "16.png", "17.png", "18.png",
    "19.png", "20.png"]

/-! ## Lemmas on the serialisation -/

theorem le_decode_le_uint16 (v : Nat) : le_decode (le_uint16 v) = v % 2 ^ 16 := by
  simp only [le_uint16, le_decode, byte_of]
  omega

theorem le_decode_le_uint32 (v : Nat) : le_decode (le_uint32 v) = v % 2 ^ 32 := by
  simp only [le_uint32, le_decode, byte_of]
  omega

theorem icon_header_bytes_length (h : icon_header) : h.bytes.length = 6 := rfl

theorem icon_entry_bytes_length (e : icon_entry) : e.bytes.length = 16 := rfl

theorem write_entries_length (l : List png_image) (offset : Nat) :
    (write_entries l offset).length = 16 * l.length := by
  induction l generalizing offset with
  | nil => rfl
  | cons p ps ih =>
    simp only [write_entries, List.length_append, icon_entry_bytes_length, ih, List.length_cons]
    omega

theorem write_images_length (l : List png_image) :
    (write_images l).length = payload_size l := by
  induction l with
  | nil => rfl
  | cons p ps ih =>
    simp only [write_images, List.length_append, ih, payload_size, List.map_cons, List.sum_cons]

/-! ## Lemmas on slices -/

theorem slice_append_left (a b : List uint8_t) (pos n : Nat) (h : pos + n ≤ a.length) :
    slice (a ++ b) pos n = slice a pos n := by
  unfold slice
  rw [List.drop_append_of_le_length (by omega), List.take_append_of_le_length]
  rw [List.length_drop]
  omega

theorem slice_append_right (a b : List uint8_t) (pos n : Nat) :
    slice (a ++ b) (a.length + pos) n = slice b pos n := by
  unfold slice
  rw [List.drop_append]

theorem slice_prefix (a b : List uint8_t) : slice (a ++ b) 0 a.length = a := by
  unfold slice
  simp

/-! ## Lemmas on the two loops of the writer -/

theorem write_entries_slice (l : List png_image) (offset i : Nat) (p : png_image)
    (hoff : offset < 2 ^ 32) (h : l[i]? = some p) :
    slice (write_entries l offset) (16 * i) 16 =
      (make_entry p ((offset + payload_size (l.take i)) % 2 ^ 32)).bytes := by
  induction l generalizing offset i with
  | nil => simp at h
  | cons q qs ih =>
    cases i with
    | zero =>
      simp only [List.getElem?_cons_zero, Option.some.injEq] at h
      subst h
      simp only [write_entries, Nat.mul_zero, List.take_zero, payload_size, List.map_nil,
        List.sum_nil, Nat.add_zero, Nat.mod_eq_of_lt hoff]
      exact slice_prefix (make_entry q offset).bytes _
    | succ i =>
      simp only [List.getElem?_cons_succ] at h
      have hpos : 16 * (i + 1) = (make_entry q offset).bytes.length + 16 * i := by
        rw [icon_entry_bytes_length]; omega
      simp only [write_entries]
      rw [hpos, slice_append_right, ih _ i (Nat.mod_lt _ (by decide)) h]
      congr 2
      simp only [make_entry, List.take_succ_cons, payload_size, List.map_cons, List.sum_cons]
      omega

theorem write_images_slice (l : List png_image) (i : Nat) (p : png_image)
    (h : l[i]? = some p) :
    slice (write_images l) (payload_size (l.take i)) p.buffer.length = p.buffer := by
  induction l generalizing i with
  | nil => simp at h
  | cons q qs ih =>
    cases i with
    | zero =>
      simp only [List.getElem?_cons_zero, Option.some.injEq] at h
      subst h
      simp only [write_images, List.take_zero, payload_size, List.map_nil, List.sum_nil]
      exact slice_prefix _ _
    | succ i =>
      simp only [List.getElem?_cons_succ] at h
      simp only [write_images, List.take_succ_cons, payload_size, List.map_cons, List.sum_cons]
      rw [slice_append_right]
      exact ih i h

/-- What the writer produces on an opened file, with the header count named. -/
theorem write_ico_file_eq (png : List png_image) :
    write_ico_file true png = .ok
      ((icon_header.mk 0 1 (png.length % 65536)).bytes ++
        write_entries (png.take (png.length % 65536)) (6 + 16 * (png.length % 65536)) ++
        write_images (png.take (png.length % 65536))) := by
  have h : (6 + 16 * (png.length % 65536)) % 4294967296 = 6 + 16 * (png.length % 65536) := by
    omega
  simp [write_ico_file, ICO_RESOURCE_TYPE, sizeof_icon_header, sizeof_icon_entry, h]

/-- What the writer produces when the number of images fits the 16-bit count. -/
theorem write_ico_file_small (png : List png_image) (hN : png.length ≤ 65535) :
    write_ico_file true png = .ok
      ((icon_header.mk 0 1 png.length).bytes ++
        write_entries png (6 + 16 * png.length) ++ write_images png) := by
  have h : png.length % 65536 = png.length := Nat.mod_eq_of_lt (by omega)
  rw [write_ico_file_eq, h, List.take_length]

theorem slice_slice (out : List uint8_t) (a n b m : Nat) (h : b + m ≤ n) :
    slice (slice out a n) b m = slice out (a + b) m := by
  unfold slice
  rw [List.drop_take, List.take_take, List.drop_drop, Nat.min_eq_left (by omega)]

theorem slice_length (out : List uint8_t) (pos n : Nat) (h : pos + n ≤ out.length) :
    (slice out pos n).length = n := by
  unfold slice
  rw [List.length_take, List.length_drop]
  omega

theorem get_of_slice (out : List uint8_t) (pos n k : Nat) (l : List uint8_t)
    (h : slice out pos n = l) (hk : k < l.length) : out[pos + k]? = l[k]? := by
  subst h
  unfold slice at hk ⊢
  rw [List.length_take] at hk
  rw [List.getElem?_take_of_lt (by omega), List.getElem?_drop]

theorem write_images_eq (l : List png_image) :
    write_images l = (l.map fun p => p.buffer).flatten := by
  induction l with
  | nil => rfl
  | cons p ps ih => simp [write_images, ih]

/-- Length of the stream written to an opened file. -/
theorem ok_length (png : List png_image) (out : List uint8_t)
    (h : write_ico_file true png = .ok out) :
    out.length = 6 + 16 * (png.length % 65536) +
      payload_size (png.take (png.length % 65536)) := by
  rw [write_ico_file_eq] at h
  injection h with h
  subst h
  simp only [List.length_append, icon_header_bytes_length, write_entries_length,
    write_images_length, List.length_take]
  have := Nat.mod_le png.length 65536
  rw [Nat.min_eq_left this]

theorem payload_size_take_le (l : List png_image) (i j : Nat) (h : i ≤ j) :
    payload_size (l.take i) ≤ payload_size (l.take j) := by
  induction l generalizing i j with
  | nil => simp
  | cons p ps ih =>
    cases i with
    | zero => simp [payload_size]
    | succ i =>
      cases j with
      | zero => omega
      | succ j =>
        have := ih i j (by omega)
        simp only [List.take_succ_cons, payload_size, List.map_cons, List.sum_cons] at this ⊢
        omega

theorem payload_size_take_succ (l : List png_image) (i : Nat) (p : png_image)
    (h : l[i]? = some p) :
    payload_size (l.take (i + 1)) = payload_size (l.take i) + p.buffer.length := by
  induction l generalizing i with
  | nil => simp at h
  | cons q qs ih =>
    cases i with
    | zero =>
      simp only [List.getElem?_cons_zero, Option.some.injEq] at h
      subst h
      simp [payload_size]
    | succ i =>
      simp only [List.getElem?_cons_succ] at h
      have := ih i h
      simp only [List.take_succ_cons, payload_size, List.map_cons, List.sum_cons] at this ⊢
      omega

/-- Directory entry `i` of the stream, for every image the loops visit. -/
theorem dir_entry_of_ok (png : List png_image) (out : List uint8_t) (i : Nat) (p : png_image)
    (h : write_ico_file true png = .ok out) (hi : i < png.length % 65536)
    (hp : png[i]? = some p) :
    dir_entry out i = (make_entry p
      ((6 + 16 * (png.length % 65536) + payload_size (png.take i)) % 2 ^ 32)).bytes := by
  rw [write_ico_file_eq] at h
  injection h with h
  subst h
  have hp2 : (png.take (png.length % 65536))[i]? = some p := by
    rw [List.getElem?_take_of_lt hi, hp]
  have hlen : 16 * i + 16 ≤
      (write_entries (png.take (png.length % 65536)) (6 + 16 * (png.length % 65536))).length := by
    rw [write_entries_length, List.length_take]
    have := Nat.mod_le png.length 65536
    omega
  have h6 : 6 + 16 * i = (icon_header.mk 0 1 (png.length % 65536)).bytes.length + 16 * i := by
    rw [icon_header_bytes_length]
  unfold dir_entry
  rw [List.append_assoc, h6, slice_append_right, slice_append_left _ _ _ _ hlen,
    write_entries_slice _ _ i p (by omega) hp2, List.take_take, Nat.min_eq_left (by omega)]

/-- The payload of image `i` sits at its true position in the stream. -/
theorem payload_of_ok (png : List png_image) (out : List uint8_t) (i : Nat) (p : png_image)
    (h : write_ico_file true png = .ok out) (hi : i < png.length % 65536)
    (hp : png[i]? = some p) :
    slice out (6 + 16 * (png.length % 65536) + payload_size (png.take i)) p.buffer.length =
      p.buffer := by
  rw [write_ico_file_eq] at h
  injection h with h
  subst h
  have hp2 : (png.take (png.length % 65536))[i]? = some p := by
    rw [List.getElem?_take_of_lt hi, hp]
  have hpos : 6 + 16 * (png.length % 65536) + payload_size (png.take i) =
      ((icon_header.mk 0 1 (png.length % 65536)).bytes ++
        write_entries (png.take (png.length % 65536)) (6 + 16 * (png.length % 65536))).length +
      payload_size ((png.take (png.length % 65536)).take i) := by
    rw [List.length_append, icon_header_bytes_length, write_entries_length, List.length_take,
      List.take_take, Nat.min_eq_left (Nat.le_of_lt hi),
      Nat.min_eq_left (Nat.mod_le png.length 65536)]
  rw [hpos, slice_append_right]
  exact write_images_slice _ i p hp2

theorem entry_bytes_offset_slice (e : icon_entry) : slice e.bytes 12 4 = le_uint32 e.offset := rfl

theorem entry_bytes_size_slice (e : icon_entry) : slice e.bytes 8 4 = le_uint32 e.size := rfl

/-- The directory of the stream is inside the stream. -/
theorem dir_entry_in_range (png : List png_image) (out : List uint8_t) (i : Nat)
    (h : write_ico_file true png = .ok out) (hi : i < png.length % 65536) :
    6 + 16 * i + 16 ≤ out.length := by
  rw [ok_length png out h]
  omega

/-- The offset field of entry `i`, for every image the loops visit. -/
theorem entry_offset_of_ok (png : List png_image) (out : List uint8_t) (i : Nat) (p : png_image)
    (h : write_ico_file true png = .ok out) (hi : i < png.length % 65536)
    (hp : png[i]? = some p) :
    entry_offset out i =
      some ((6 + 16 * (png.length % 65536) + payload_size (png.take i)) % 2 ^ 32) := by
  have hr := dir_entry_in_range png out i h hi
  have hd := dir_entry_of_ok png out i p h hi hp
  unfold entry_offset read_le
  rw [if_pos (by omega), ← slice_slice out (6 + 16 * i) 16 12 4 (by omega)]
  unfold dir_entry at hd
  rw [hd, entry_bytes_offset_slice, le_decode_le_uint32]
  simp only [make_entry, Nat.mod_mod]

/-- The size field of entry `i`, for every image the loops visit. -/
theorem entry_size_of_ok (png : List png_image) (out : List uint8_t) (i : Nat) (p : png_image)
    (h : write_ico_file true png = .ok out) (hi : i < png.length % 65536)
    (hp : png[i]? = some p) :
    entry_size out i = some (p.buffer.length % 2 ^ 32) := by
  have hr := dir_entry_in_range png out i h hi
  have hd := dir_entry_of_ok png out i p h hi hp
  unfold entry_size read_le
  rw [if_pos (by omega), ← slice_slice out (6 + 16 * i) 16 8 4 (by omega)]
  unfold dir_entry at hd
  rw [hd, entry_bytes_size_slice, le_decode_le_uint32]
  simp only [make_entry, Nat.mod_mod]

theorem byte_of_mod (v : Nat) : byte_of (v % 256) = byte_of v := by
  simp [byte_of]

theorem le_uint32_mod (v : Nat) : le_uint32 (v % 2 ^ 32) = le_uint32 v := by
  simp only [le_uint32, byte_of, List.cons.injEq, Fin.mk.injEq, and_true]
  omega

/-- When the 16-bit count is 0 only the header is written. -/
theorem write_ico_file_count_zero (png : List png_image) (h : png.length % 65536 = 0) :
    write_ico_file true png = .ok [0, 0, 1, 0, 0, 0] := by
  rw [write_ico_file_eq, h]
  rfl

/-- After a first image of exactly 2^32 bytes the running offset is back at its start. -/
theorem entry_offset_after_4GiB (b : List uint8_t) (hb : b.length = 4294967296)
    (q : png_image) (out : List uint8_t)
    (hok : write_ico_file true [⟨1, 1, b⟩, q] = .ok out) :
    entry_offset out 1 = some 38 := by
  have h1 : 1 < ([⟨1, 1, b⟩, q] : List png_image).length % 65536 := by
    show 1 < 2 % 65536
    decide
  rw [entry_offset_of_ok _ out 1 q hok h1 rfl]
  simp only [List.take, payload_size, List.map, List.sum_cons, List.sum_nil, hb,
    List.length_cons, List.length_nil]
  rfl

/-- After a first image of exactly 2^32 bytes, byte 38 of the stream is that image's
first byte. -/
theorem payload_after_4GiB (b : List uint8_t) (hb : b.length = 4294967296)
    (q : png_image) (out : List uint8_t)
    (hok : write_ico_file true [⟨1, 1, b⟩, q] = .ok out) :
    slice out 38 1 = slice b 0 1 := by
  have h0 : 0 < ([⟨1, 1, b⟩, q] : List png_image).length % 65536 := by
    show 0 < 2 % 65536
    decide
  have h := payload_of_ok _ out 0 ⟨1, 1, b⟩ hok h0 rfl
  have h38 : 6 + 16 * (([⟨1, 1, b⟩, q] : List png_image).length % 65536) +
      payload_size (([⟨1, 1, b⟩, q] : List png_image).take 0) = 38 := rfl
  rw [h38] at h
  have h2 := slice_slice out 38 b.length 0 1 (by simp only [hb]; omega)
  simp only [h] at h2
  exact h2.symm

/-- The size field of the entry of a single image of exactly 2^32 bytes is 0. -/
theorem entry_size_of_4GiB (b : List uint8_t) (hb : b.length = 4294967296)
    (out : List uint8_t) (hok : write_ico_file true [⟨1, 1, b⟩] = .ok out) :
    entry_size out 0 = some 0 := by
  have h0 : 0 < ([⟨1, 1, b⟩] : List png_image).length % 65536 := by
    show 0 < 1 % 65536
    decide
  rw [entry_size_of_ok _ out 0 ⟨1, 1, b⟩ hok h0 rfl]
  simp only [hb]
  rfl

/-- The serialised entry of an image, byte by byte. -/
theorem make_entry_bytes (p : png_image) (offset : Nat) :
    (make_entry p offset).bytes =
      [byte_of (if p.width > 255 then 0 else p.width),
        byte_of (if p.height > 255 then 0 else p.height), 0, 0, 1, 0, 32, 0] ++
      le_uint32 (p.buffer.length % 2 ^ 32) ++ le_uint32 offset := by
  simp only [make_entry, icon_entry.bytes, le_uint8, le_uint16, byte_of_mod]
  rfl

theorem byte_of_val_of_le (d : Nat) (h : d ≤ 255) : (byte_of d).val = d := by
  simp only [byte_of]
  omega

/-- The serialised header, byte by byte. -/
theorem icon_header_bytes_eq (n : Nat) :
    (icon_header.mk 0 1 n).bytes = [0, 0, 1, 0, byte_of n, byte_of (n / 256)] := by
  simp only [icon_header.bytes, le_uint16]
  rfl

/-! ## Lemmas on the reader -/

theorem swap_uint32_or (v : Nat) :
    swap_uint32 v =
      2 ^ 8 * (2 ^ 8 * (2 ^ 8 * (v % 2 ^ 8) ||| (v >>> 8) % 2 ^ 8) ||| (v >>> 16) % 2 ^ 8) |||
        (v >>> 24) % 2 ^ 8 := by
  apply Nat.eq_of_testBit_eq
  intro i
  simp only [swap_uint32, Nat.testBit_or, Nat.testBit_and, Nat.testBit_shiftLeft,
    Nat.testBit_shiftRight, Nat.testBit_mod_two_pow, Nat.testBit_mul_pow_two]
  rcases Nat.lt_or_ge i 32 with h | h
  · interval_cases i <;>
      simp [Nat.testBit_to_div_mod (x := 4278255360), Nat.testBit_to_div_mod (x := 16711935)]
  · have h1 : Nat.testBit 0xFF00FF00 (16 + i) = false :=
      Nat.testBit_lt_two_pow (Nat.lt_of_lt_of_le (by decide : 0xFF00FF00 < 2 ^ 32)
        (Nat.pow_le_pow_right (by decide) (by omega)))
    have h2 : Nat.testBit 0xFF00FF (16 + i) = false :=
      Nat.testBit_lt_two_pow (Nat.lt_of_lt_of_le (by decide : 0xFF00FF < 2 ^ 32)
        (Nat.pow_le_pow_right (by decide) (by omega)))
    have a1 : ¬ i < 32 := by omega
    have a2 : ¬ i < 8 := by omega
    have a3 : ¬ i - 8 < 8 := by omega
    have a4 : ¬ i - 8 - 8 < 8 := by omega
    have a5 : ¬ i - 8 - 8 - 8 < 8 := by omega
    simp [h1, h2, a1, a2, a3, a4, a5]

/-- The value of `swap_uint32` in terms of the four bytes of its argument. -/
theorem swap_uint32_bytes (v : Nat) :
    swap_uint32 v =
      (v % 256) * 16777216 + (v / 256 % 256) * 65536 + (v / 65536 % 256) * 256 +
        v / 16777216 % 256 := by
  have e1 : 2 ^ 8 * (v % 2 ^ 8) + (v >>> 8) % 2 ^ 8 =
      2 ^ 8 * (v % 2 ^ 8) ||| (v >>> 8) % 2 ^ 8 :=
    Nat.mul_add_lt_is_or (Nat.mod_lt _ (by decide)) _
  have e2 := Nat.mul_add_lt_is_or (Nat.mod_lt (v >>> 16) (by decide : 2 ^ 8 > 0))
    (2 ^ 8 * (v % 2 ^ 8) ||| (v >>> 8) % 2 ^ 8)
  have e3 := Nat.mul_add_lt_is_or (Nat.mod_lt (v >>> 24) (by decide : 2 ^ 8 > 0))
    (2 ^ 8 * (2 ^ 8 * (v % 2 ^ 8) ||| (v >>> 8) % 2 ^ 8) ||| (v >>> 16) % 2 ^ 8)
  rw [swap_uint32_or, ← e3, ← e2, ← e1]
  clear e1 e2 e3
  simp only [Nat.shiftRight_eq_div_pow]
  norm_num
  omega

/-- Byte-swapping the little-endian value of four bytes gives their big-endian value. -/
theorem swap_uint32_le_decode (got : List uint8_t) (h : got.length = 4) :
    swap_uint32 (le_decode got) = be_decode got := by
  match got, h with
  | [a, b, c, d], _ =>
    rw [swap_uint32_bytes]
    simp only [le_decode, be_decode, List.foldl_cons, List.foldl_nil]
    have ha := a.isLt
    have hb := b.isLt
    have hc := c.isLt
    have hd := d.isLt
    generalize a.val = x0 at ha ⊢
    generalize b.val = x1 at hb ⊢
    generalize c.val = x2 at hc ⊢
    generalize d.val = x3 at hd ⊢
    have h0 : (x0 + 256 * (x1 + 256 * (x2 + 256 * (x3 + 256 * 0)))) % 256 = x0 := by omega
    have h1 : (x0 + 256 * (x1 + 256 * (x2 + 256 * (x3 + 256 * 0)))) / 256 % 256 = x1 := by
      omega
    have h2 : (x0 + 256 * (x1 + 256 * (x2 + 256 * (x3 + 256 * 0)))) / 65536 % 256 = x2 := by
      omega
    have h3 : (x0 + 256 * (x1 + 256 * (x2 + 256 * (x3 + 256 * 0)))) / 16777216 % 256 = x3 := by
      omega
    rw [h0, h1, h2, h3]
    omega

theorem memory_store_bytes (m : memory) (got : List uint8_t) :
    (m.store got).bytes got.length = got := by
  apply List.ext_getElem
  · simp [memory.bytes]
  · intro i h1 h2
    simp [memory.bytes, memory.store, List.getD_eq_getElem _ _ h2, List.getElem?_eq_getElem h2]

theorem memcmp_eq_zero_iff (a b : List uint8_t) (h : a.length = b.length) :
    memcmp a b = 0 ↔ a = b := by
  induction a generalizing b with
  | nil =>
    cases b with
    | nil => simp [memcmp]
    | cons y ys => simp at h
  | cons x xs ih =>
    cases b with
    | nil => simp at h
    | cons y ys =>
      simp only [List.length_cons, Nat.add_right_cancel_iff] at h
      simp only [memcmp, List.cons.injEq]
      by_cases hxy : x = y
      · simp [hxy, ih ys h]
      · simp only [hxy, if_false, false_and, iff_false]
        intro h0
        apply hxy
        apply Fin.ext
        omega

/-- A read of `n` bytes that the file has, on a good stream. -/
theorem ifstream_read_full (file : List uint8_t) (pos n : Nat) (dst : memory)
    (h : pos + n ≤ file.length) :
    (ifstream.mk file pos false false).read dst n =
      (ifstream.mk file (pos + n) false false, dst.store (slice file pos n)) := by
  have hlen : (slice file pos n).length = n := slice_length file pos n h
  unfold slice at hlen
  simp only [ifstream.read, Bool.or_self, Bool.false_eq_true, if_false, hlen, Nat.lt_irrefl,
    slice]

theorem slice_zero (file : List uint8_t) (n : Nat) : slice file 0 n = file.take n := by
  simp [slice]

/-- The signature test of `read_png_file` on a file of at least 8 bytes. -/
theorem read_png_file_bad_signature (u : uninit) (file : List uint8_t)
    (hlen : 8 ≤ file.length) (hsig : file.take 8 ≠ png_signature) :
    read_png_file u (some file) = .error .is_not_a_png_file := by
  have h8 : (slice file 0 8).length = 8 := slice_length file 0 8 (by omega)
  have hb : (u.png_header.store (slice file 0 8)).bytes 8 = slice file 0 8 := by
    have := memory_store_bytes u.png_header (slice file 0 8)
    rw [h8] at this
    exact this
  have hne : check_png_signature (u.png_header.store (slice file 0 8)) ≠ 0 := by
    unfold check_png_signature
    rw [PNG_HEADER_SIZE, hb, Ne, memcmp_eq_zero_iff _ _ (by rw [h8]; rfl), slice_zero]
    exact hsig
  simp only [read_png_file, PNG_HEADER_SIZE]
  rw [ifstream_read_full file 0 8 _ (by omega)]
  simp only [hne, ne_eq, not_false_eq_true, if_true]

/-- What `read_png_file` does on a file of at least 24 bytes. -/
theorem read_png_file_long (u : uninit) (file : List uint8_t) (hlen : 24 ≤ file.length) :
    read_png_file u (some file) =
      if file.take 8 ≠ png_signature then .error .is_not_a_png_file
      else if be_uint32_at file 16 ≠ be_uint32_at file 20 then .error .should_be_square
      else if be_uint32_at file 16 > 512 then .error .should_be_smaller_than_512
      else .ok ⟨be_uint32_at file 16, be_uint32_at file 20, file⟩ := by
  by_cases hsig : file.take 8 = png_signature
  · have h8 : (slice file 0 8).length = 8 := slice_length file 0 8 (by omega)
    have hb : (u.png_header.store (slice file 0 8)).bytes 8 = slice file 0 8 := by
      have := memory_store_bytes u.png_header (slice file 0 8)
      rw [h8] at this
      exact this
    have heq : check_png_signature (u.png_header.store (slice file 0 8)) = 0 := by
      unfold check_png_signature
      rw [PNG_HEADER_SIZE, hb, memcmp_eq_zero_iff _ _ (by rw [h8]; rfl), slice_zero]
      exact hsig
    have hw4 : (slice file 16 4).length = 4 := slice_length file 16 4 (by omega)
    have hh4 : (slice file 20 4).length = 4 := slice_length file 20 4 (by omega)
    have hw : swap_uint32 (load_uint32 (u.width.store (slice file 16 4))) =
        be_uint32_at file 16 := by
      have := memory_store_bytes u.width (slice file 16 4)
      rw [hw4] at this
      rw [load_uint32, this, swap_uint32_le_decode _ hw4, be_uint32_at]
    have hh : swap_uint32 (load_uint32 (u.height.store (slice file 20 4))) =
        be_uint32_at file 20 := by
      have := memory_store_bytes u.height (slice file 20 4)
      rw [hh4] at this
      rw [load_uint32, this, swap_uint32_le_decode _ hh4, be_uint32_at]
    simp only [read_png_file, PNG_HEADER_SIZE, PNG_CHUNK_SIZE]
    rw [ifstream_read_full file 0 8 _ (by omega)]
    simp only [heq, ne_eq, not_true_eq_false, if_false, ifstream.seekg_cur, Bool.false_eq_true]
    rw [ifstream_read_full file (0 + 8 + 8) 4 _ (by omega)]
    simp only []
    rw [ifstream_read_full file (0 + 8 + 8 + 4) 4 _ (by omega)]
    simp only [hw, hh, hsig, ne_eq, not_true_eq_false, if_false, ifstream.seekg,
      Bool.false_eq_true, ifstream.rest, ios_beg, List.drop_zero]
  · rw [read_png_file_bad_signature u file (by omega) hsig]
    simp only [hsig, ne_eq, not_false_eq_true, if_true]

/-- The count field of the stream written to an opened file. -/
theorem header_count_of_ok (png : List png_image) (out : List uint8_t)
    (h : write_ico_file true png = .ok out) :
    header_count out = some (png.length % 65536) := by
  have hlen := ok_length png out h
  rw [write_ico_file_eq] at h
  injection h with h
  subst h
  unfold header_count read_le
  rw [if_pos (by rw [hlen]; omega), List.append_assoc]
  have h42 : 4 + 2 ≤ (icon_header.mk 0 1 (png.length % 65536)).bytes.length := by
    rw [icon_header_bytes_length]
  rw [slice_append_left _ _ 4 2 h42]
  have hs : slice (icon_header.mk 0 1 (png.length % 65536)).bytes 4 2 =
      le_uint16 (png.length % 65536) := rfl
  rw [hs, le_decode_le_uint16]
  congr 1
  omega

/-- The width and height bytes of directory entry `i`, for every image the loops visit. -/
theorem dimension_bytes_of_ok (png : List png_image) (out : List uint8_t) (i : Nat)
    (p : png_image) (hok : write_ico_file true png = .ok out) (hi : i < png.length % 65536)
    (hp : png[i]? = some p) :
    out[6 + 16 * i]? = some (byte_of (if p.width > 255 then 0 else p.width)) ∧
    out[6 + 16 * i + 1]? = some (byte_of (if p.height > 255 then 0 else p.height)) := by
  have hd := dir_entry_of_ok png out i p hok hi hp
  rw [make_entry_bytes] at hd
  unfold dir_entry at hd
  constructor
  · have := get_of_slice out _ _ 0 _ hd (by simp [le_uint32])
    rw [Nat.add_zero] at this
    rw [this]
    rfl
  · rw [get_of_slice out _ _ 1 _ hd (by simp [le_uint32])]
    rfl

/-- Whatever the file and the uninitialised locals, a returned image passed both
checks. -/
theorem read_png_file_ok_checked (u : uninit) (file : Option (List uint8_t))
    (image : png_image) (h : read_png_file u file = .ok image) :
    image.width = image.height ∧ image.width ≤ 512 := by
  unfold read_png_file at h
  split at h
  · cases h
  · simp only [] at h
    split at h
    · cases h
    · split at h
      · cases h
      · split at h
        · cases h
        · injection h with h
          subst h
          constructor
          · simp only []
            omega
          · simp only []
            omega

/-- A file of at least 24 bytes that passes the three checks is returned whole. -/
theorem read_png_file_valid (u : uninit) (file : List uint8_t) (hlen : 24 ≤ file.length)
    (hsig : file.take 8 = png_signature)
    (hsq : be_uint32_at file 16 = be_uint32_at file 20) (hle : be_uint32_at file 16 ≤ 512) :
    read_png_file u (some file) = .ok ⟨be_uint32_at file 16, be_uint32_at file 20, file⟩ := by
  rw [read_png_file_long u file hlen]
  have h512 : ¬ be_uint32_at file 16 > 512 := by omega
  rw [if_neg (not_not.mpr hsig), if_neg (not_not.mpr hsq), if_neg h512]

theorem memory_store_bytes_take (m : memory) (got : List uint8_t) (n : Nat)
    (h : got.length ≤ n) : ((m.store got).bytes n).take got.length = got := by
  have := memory_store_bytes m got
  unfold memory.bytes at this ⊢
  rw [← List.map_take, List.take_range, Nat.min_eq_left h]
  exact this

/-- A file shorter than the signature that is not a truncation of it fails the signature
test, whatever `png_header` held before. -/
theorem read_png_file_short_bad_signature (u : uninit) (file : List uint8_t)
    (hlen : file.length < 8) (hpre : ¬ file <+: png_signature) :
    read_png_file u (some file) = .error .is_not_a_png_file := by
  have hgot : List.take 8 (List.drop 0 file) = file := by
    rw [List.drop_zero, List.take_of_length_le (by omega)]
  have hne : check_png_signature (u.png_header.store file) ≠ 0 := by
    unfold check_png_signature
    rw [PNG_HEADER_SIZE, Ne, memcmp_eq_zero_iff _ _ (by simp [memory.bytes, png_signature])]
    intro heq
    apply hpre
    have := memory_store_bytes_take u.png_header file 8 (by omega)
    rw [heq] at this
    rw [← this]
    exact List.take_prefix _ _
  simp only [read_png_file, PNG_HEADER_SIZE, ifstream.read, Bool.or_self, Bool.false_eq_true,
    if_false, hgot, hlen, if_true, hne, ne_eq, not_false_eq_true]

/-- On a file that is a truncation of the signature the signature test reads bytes of
`png_header` that no read has written: the empty file is rejected when they are zero,
and accepted as a 0 x 0 image with an empty buffer when they hold the signature (as
after an earlier call on a png file) and the width and height locals hold zero. -/
theorem read_png_file_truncated_signature :
    read_png_file zero_stack (some []) = .error .is_not_a_png_file ∧
    read_png_file ⟨fun i => png_signature.getD i 0, fun _ => 0, fun _ => 0⟩ (some []) =
      .ok ⟨0, 0, []⟩ := by
  constructor <;> rfl

/-! ## The ICO container writer: layout of the output -/

/-- C1 (amended): for every sequence of N <= 65535 images with byte sizes S_0..S_{N-1}
passed to `write_ico_file` and every index i < N, the offset field of directory entry i is
`(6 + 16*N + (S_0 + ... + S_{i-1})) mod 2^32`; it is `6 + 16*N + (S_0 + ... + S_{i-1})`
whenever that number is below 2^32, and entry 0 reports `6 + 16*N`. -/
theorem entry_offset_layout (png : List png_image) (i : Nat)
    (hN : png.length ≤ 65535) (hi : i < png.length) :
    ∃ out, write_ico_file true png = .ok out ∧
      entry_offset out i = some ((6 + 16 * png.length + payload_size (png.take i)) % 2 ^ 32) ∧
      (6 + 16 * png.length + payload_size (png.take i) < 2 ^ 32 →
        entry_offset out i = some (6 + 16 * png.length + payload_size (png.take i))) ∧
      entry_offset out 0 = some (6 + 16 * png.length) := by
  have hc : png.length % 65536 = png.length := Nat.mod_eq_of_lt (by omega)
  obtain ⟨out, hok⟩ : ∃ out, write_ico_file true png = .ok out := ⟨_, write_ico_file_eq png⟩
  have hoff := entry_offset_of_ok png out i png[i] hok (by omega) (List.getElem?_eq_getElem hi)
  have h0lt : 0 < png.length := by omega
  have h0 := entry_offset_of_ok png out 0 png[0] hok (by omega)
    (List.getElem?_eq_getElem h0lt)
  rw [hc] at hoff h0
  refine ⟨out, hok, hoff, ?_, ?_⟩
  · intro hlt
    rw [hoff, Nat.mod_eq_of_lt hlt]
  · rw [h0]
    simp only [List.take_zero, payload_size, List.map_nil, List.sum_nil, Nat.add_zero]
    congr 1
    omega

/-- C1 (witness): two images of 3 and 2 bytes, entry 1. -/
theorem entry_offset_layout_witness :
    ([⟨64, 64, [1, 2, 3]⟩, ⟨32, 32, [4, 5]⟩] : List png_image).length ≤ 65535 ∧
    1 < ([⟨64, 64, [1, 2, 3]⟩, ⟨32, 32, [4, 5]⟩] : List png_image).length ∧
    ∃ out, write_ico_file true [⟨64, 64, [1, 2, 3]⟩, ⟨32, 32, [4, 5]⟩] = .ok out ∧
      entry_offset out 1 = some ((6 + 16 *
          ([⟨64, 64, [1, 2, 3]⟩, ⟨32, 32, [4, 5]⟩] : List png_image).length +
        payload_size (([⟨64, 64, [1, 2, 3]⟩, ⟨32, 32, [4, 5]⟩] : List png_image).take 1))
          % 2 ^ 32) ∧
      (6 + 16 * ([⟨64, 64, [1, 2, 3]⟩, ⟨32, 32, [4, 5]⟩] : List png_image).length +
        payload_size (([⟨64, 64, [1, 2, 3]⟩, ⟨32, 32, [4, 5]⟩] : List png_image).take 1)
          < 2 ^ 32 →
        entry_offset out 1 = some (6 + 16 *
            ([⟨64, 64, [1, 2, 3]⟩, ⟨32, 32, [4, 5]⟩] : List png_image).length +
          payload_size (([⟨64, 64, [1, 2, 3]⟩, ⟨32, 32, [4, 5]⟩] : List png_image).take 1))) ∧
      entry_offset out 0 = some (6 + 16 *
        ([⟨64, 64, [1, 2, 3]⟩, ⟨32, 32, [4, 5]⟩] : List png_image).length) :=
  ⟨by decide, by decide,
    entry_offset_layout [⟨64, 64, [1, 2, 3]⟩, ⟨32, 32, [4, 5]⟩] 1 (by decide) (by decide)⟩

/-- C1 (counterexample): with a first image of S_0 = 2^32 bytes the running 32-bit offset
wraps, so entry 1 reports 38 where the claim requires 6 + 16*2 + 2^32 = 4294967334; and for
N = 65536 images the 16-bit count is 0, no directory entry is written and entry 0 has no
offset field at all. -/
theorem entry_offset_counterexample :
    (∃ out, write_ico_file true [⟨1, 1, List.replicate 4294967296 0⟩, ⟨1, 1, []⟩] = .ok out ∧
      entry_offset out 1 = some 38 ∧
      (List.replicate 4294967296 (0 : uint8_t)).length = 4294967296 ∧
      38 ≠ 6 + 16 * 2 + 4294967296) ∧
    (∃ out, write_ico_file true (List.replicate 65536 ⟨1, 1, []⟩) = .ok out ∧
      entry_offset out 0 = none) := by
  constructor
  · obtain ⟨out, hok⟩ : ∃ out, write_ico_file true
        [⟨1, 1, List.replicate 4294967296 0⟩, ⟨1, 1, []⟩] = .ok out := ⟨_, write_ico_file_eq _⟩
    exact ⟨out, hok, entry_offset_after_4GiB _ (List.length_replicate _ _) _ out hok,
      List.length_replicate _ _, by decide⟩
  · have hc : (List.replicate 65536 (⟨1, 1, []⟩ : png_image)).length % 65536 = 0 := by
      rw [List.length_replicate]
    have hnone : entry_offset [0, 0, 1, 0, 0, 0] 0 = none := rfl
    exact ⟨_, write_ico_file_count_zero _ hc, hnone⟩

/-- C2 (amended): for every sequence of N <= 65535 images passed to `write_ico_file` and
every index i < N such that `6 + 16*N + (S_0 + ... + S_{i-1})` is below 2^32, the bytes of
the output in the range [offset_i, offset_i + S_i), where offset_i is the value written in
directory entry i and S_i is image i's byte length, are exactly image i's bytes; so for a
non-empty image the output byte at offset_i is the first byte of image i. -/
theorem payload_at_entry_offset (png : List png_image) (i : Nat) (p : png_image)
    (hN : png.length ≤ 65535) (hp : png[i]? = some p)
    (hfit : 6 + 16 * png.length + payload_size (png.take i) < 2 ^ 32) :
    ∃ out off, write_ico_file true png = .ok out ∧ entry_offset out i = some off ∧
      slice out off p.buffer.length = p.buffer ∧
      (p.buffer ≠ [] → out[off]? = p.buffer[0]?) := by
  have hc : png.length % 65536 = png.length := Nat.mod_eq_of_lt (by omega)
  have hi : i < png.length := by
    rcases Nat.lt_or_ge i png.length with h | h
    · exact h
    · rw [List.getElem?_eq_none h] at hp
      cases hp
  obtain ⟨out, hok⟩ : ∃ out, write_ico_file true png = .ok out := ⟨_, write_ico_file_eq png⟩
  have hoff := entry_offset_of_ok png out i p hok (by omega) hp
  have hpay := payload_of_ok png out i p hok (by omega) hp
  rw [hc] at hoff hpay
  rw [Nat.mod_eq_of_lt hfit] at hoff
  refine ⟨out, _, hok, hoff, hpay, ?_⟩
  intro hne
  have hpos : 0 < p.buffer.length := List.length_pos.mpr hne
  have := get_of_slice out _ _ 0 p.buffer hpay hpos
  simpa using this

/-- C2 (witness): two images of 3 and 2 bytes, entry 1. -/
theorem payload_at_entry_offset_witness :
    ([⟨64, 64, [1, 2, 3]⟩, ⟨32, 32, [4, 5]⟩] : List png_image).length ≤ 65535 ∧
    ([⟨64, 64, [1, 2, 3]⟩, ⟨32, 32, [4, 5]⟩] : List png_image)[1]? = some ⟨32, 32, [4, 5]⟩ ∧
    6 + 16 * ([⟨64, 64, [1, 2, 3]⟩, ⟨32, 32, [4, 5]⟩] : List png_image).length +
      payload_size (([⟨64, 64, [1, 2, 3]⟩, ⟨32, 32, [4, 5]⟩] : List png_image).take 1)
        < 2 ^ 32 ∧
    ∃ out off, write_ico_file true [⟨64, 64, [1, 2, 3]⟩, ⟨32, 32, [4, 5]⟩] = .ok out ∧
      entry_offset out 1 = some off ∧
      slice out off (⟨32, 32, [4, 5]⟩ : png_image).buffer.length =
        (⟨32, 32, [4, 5]⟩ : png_image).buffer ∧
      ((⟨32, 32, [4, 5]⟩ : png_image).buffer ≠ [] →
        out[off]? = (⟨32, 32, [4, 5]⟩ : png_image).buffer[0]?) :=
  ⟨by decide, by decide, by decide,
    payload_at_entry_offset [⟨64, 64, [1, 2, 3]⟩, ⟨32, 32, [4, 5]⟩] 1 ⟨32, 32, [4, 5]⟩
      (by decide) (by decide) (by decide)⟩

/-- C2 (counterexample): after a first image of 2^32 zero bytes, directory entry 1 holds
offset 38, and the output byte at offset 38 is image 0's first byte 0, not the single
byte 1 of image 1. -/
theorem payload_at_entry_offset_counterexample :
    ∃ out, write_ico_file true [⟨1, 1, List.replicate 4294967296 0⟩, ⟨1, 1, [1]⟩] = .ok out ∧
      entry_offset out 1 = some 38 ∧
      slice out 38 (⟨1, 1, [1]⟩ : png_image).buffer.length = [0] ∧
      ([0] : List uint8_t) ≠ (⟨1, 1, [1]⟩ : png_image).buffer := by
  obtain ⟨out, hok⟩ : ∃ out, write_ico_file true
      [⟨1, 1, List.replicate 4294967296 0⟩, ⟨1, 1, [1]⟩] = .ok out := ⟨_, write_ico_file_eq _⟩
  have hlen : (List.replicate 4294967296 (0 : uint8_t)).length = 4294967296 :=
    List.length_replicate _ _
  have hz : slice (List.replicate 4294967296 (0 : uint8_t)) 0 1 = [0] := by
    unfold slice
    rw [List.drop_zero, List.take_replicate]
    rfl
  refine ⟨out, hok, entry_offset_after_4GiB _ hlen _ out hok, ?_, by decide⟩
  have := payload_after_4GiB _ hlen _ out hok
  rw [hz] at this
  exact this

/-- C3 (amended): for every sequence of N <= 65535 images passed to `write_ico_file`, the
output is exactly a 6-byte header, followed by N 16-byte directory entries, followed by
the images' bytes concatenated in input order, so its total length is 6 + 16*N + the sum
of the image byte lengths; the header bytes are 00 00, 01 00 and N as a little-endian
16-bit value (for N = 0 the output is the 6 bytes 00 00 01 00 00 00). -/
theorem container_layout (png : List png_image) (hN : png.length ≤ 65535) :
    ∃ out dir, write_ico_file true png = .ok out ∧
      out = [0, 0, 1, 0, byte_of png.length, byte_of (png.length / 256)] ++ dir ++
        (png.map fun p => p.buffer).flatten ∧
      dir.length = 16 * png.length ∧
      (∀ i, i < png.length → dir_entry out i = slice dir (16 * i) 16) ∧
      out.length = 6 + 16 * png.length + payload_size png ∧
      header_count out = some png.length ∧
      (png = [] → out = [0, 0, 1, 0, 0, 0]) := by
  have hc : png.length % 65536 = png.length := Nat.mod_eq_of_lt (by omega)
  have hok := write_ico_file_small png hN
  have hlen := ok_length png _ hok
  rw [hc, List.take_length] at hlen
  refine ⟨_, write_entries png (6 + 16 * png.length), hok, ?_, write_entries_length _ _,
    ?_, hlen, ?_, ?_⟩
  · rw [write_images_eq, icon_header_bytes_eq]
  · intro i hi
    have h6 : 6 + 16 * i = (icon_header.mk 0 1 png.length).bytes.length + 16 * i := by
      rw [icon_header_bytes_length]
    unfold dir_entry
    rw [List.append_assoc, h6, slice_append_right, slice_append_left]
    rw [write_entries_length]
    omega
  · rw [header_count_of_ok png _ hok, hc]
  · intro h
    subst h
    rfl

/-- C3 (witness): two images of 3 and 2 bytes. -/
theorem container_layout_witness :
    ([⟨64, 64, [1, 2, 3]⟩, ⟨32, 32, [4, 5]⟩] : List png_image).length ≤ 65535 ∧
    ∃ out dir, write_ico_file true [⟨64, 64, [1, 2, 3]⟩, ⟨32, 32, [4, 5]⟩] = .ok out ∧
      out = [0, 0, 1, 0,
          byte_of ([⟨64, 64, [1, 2, 3]⟩, ⟨32, 32, [4, 5]⟩] : List png_image).length,
          byte_of (([⟨64, 64, [1, 2, 3]⟩, ⟨32, 32, [4, 5]⟩] : List png_image).length / 256)]
        ++ dir ++
        (([⟨64, 64, [1, 2, 3]⟩, ⟨32, 32, [4, 5]⟩] : List png_image).map
          fun p => p.buffer).flatten ∧
      dir.length = 16 * ([⟨64, 64, [1, 2, 3]⟩, ⟨32, 32, [4, 5]⟩] : List png_image).length ∧
      (∀ i, i < ([⟨64, 64, [1, 2, 3]⟩, ⟨32, 32, [4, 5]⟩] : List png_image).length →
        dir_entry out i = slice dir (16 * i) 16) ∧
      out.length = 6 + 16 * ([⟨64, 64, [1, 2, 3]⟩, ⟨32, 32, [4, 5]⟩] : List png_image).length
        + payload_size [⟨64, 64, [1, 2, 3]⟩, ⟨32, 32, [4, 5]⟩] ∧
      header_count out =
        some ([⟨64, 64, [1, 2, 3]⟩, ⟨32, 32, [4, 5]⟩] : List png_image).length ∧
      (([⟨64, 64, [1, 2, 3]⟩, ⟨32, 32, [4, 5]⟩] : List png_image) = [] →
        out = [0, 0, 1, 0, 0, 0]) :=
  ⟨by decide, container_layout [⟨64, 64, [1, 2, 3]⟩, ⟨32, 32, [4, 5]⟩] (by decide)⟩

/-- C3 (counterexample): for N = 65536 one-byte images the output is the 6 header bytes
alone, with count 0: there are no 65536 directory entries and no payload, and the length
is 6, not 6 + 16*65536 + 65536. -/
theorem container_layout_counterexample :
    (List.replicate 65536 (⟨1, 1, [7]⟩ : png_image)).length = 65536 ∧
    write_ico_file true (List.replicate 65536 ⟨1, 1, [7]⟩) = .ok [0, 0, 1, 0, 0, 0] ∧
    ([0, 0, 1, 0, 0, 0] : List uint8_t).length ≠ 6 + 16 * 65536 + 65536 := by
  have hc : (List.replicate 65536 (⟨1, 1, [7]⟩ : png_image)).length % 65536 = 0 := by
    rw [List.length_replicate]
  exact ⟨List.length_replicate _ _, write_ico_file_count_zero _ hc, by decide⟩

/-- C4 (amended): for every sequence of N <= 65535 images passed to `write_ico_file` and
every image i of it, directory entry i occupies output bytes [6 + 16*i, 6 + 16*i + 16) and
has, in this order: width byte, height byte, color_count byte 0, reserved byte 0,
planes = 1 as 01 00, bit_count = 32 as 20 00, payload size = the image's byte length
mod 2^32 as 4 little-endian bytes (the byte length itself when it is below 2^32), and the
payload offset as 4 little-endian bytes; the fixed fields do not depend on the image. -/
theorem dir_entry_layout (png : List png_image) (i : Nat) (p : png_image)
    (hN : png.length ≤ 65535) (hp : png[i]? = some p) :
    ∃ out, write_ico_file true png = .ok out ∧ 6 + 16 * i + 16 ≤ out.length ∧
      dir_entry out i =
        [byte_of (if p.width > 255 then 0 else p.width),
          byte_of (if p.height > 255 then 0 else p.height), 0, 0, 1, 0, 32, 0] ++
        le_uint32 (p.buffer.length % 2 ^ 32) ++
        le_uint32 ((6 + 16 * png.length + payload_size (png.take i)) % 2 ^ 32) ∧
      entry_size out i = some (p.buffer.length % 2 ^ 32) ∧
      (p.buffer.length < 2 ^ 32 → entry_size out i = some p.buffer.length) ∧
      entry_offset out i =
        some ((6 + 16 * png.length + payload_size (png.take i)) % 2 ^ 32) := by
  have hc : png.length % 65536 = png.length := Nat.mod_eq_of_lt (by omega)
  have hi : i < png.length := by
    rcases Nat.lt_or_ge i png.length with h | h
    · exact h
    · rw [List.getElem?_eq_none h] at hp
      cases hp
  obtain ⟨out, hok⟩ : ∃ out, write_ico_file true png = .ok out := ⟨_, write_ico_file_eq png⟩
  have hr := dir_entry_in_range png out i hok (by omega)
  have hd := dir_entry_of_ok png out i p hok (by omega) hp
  have hs := entry_size_of_ok png out i p hok (by omega) hp
  have ho := entry_offset_of_ok png out i p hok (by omega) hp
  rw [hc] at hd ho
  rw [make_entry_bytes] at hd
  refine ⟨out, hok, hr, hd, hs, ?_, ho⟩
  intro hlt
  rw [hs, Nat.mod_eq_of_lt hlt]

/-- C4 (witness): two images of 3 and 2 bytes, entry 1. -/
theorem dir_entry_layout_witness :
    ([⟨64, 64, [1, 2, 3]⟩, ⟨32, 32, [4, 5]⟩] : List png_image).length ≤ 65535 ∧
    ([⟨64, 64, [1, 2, 3]⟩, ⟨32, 32, [4, 5]⟩] : List png_image)[1]? = some ⟨32, 32, [4, 5]⟩ ∧
    ∃ out, write_ico_file true [⟨64, 64, [1, 2, 3]⟩, ⟨32, 32, [4, 5]⟩] = .ok out ∧
      6 + 16 * 1 + 16 ≤ out.length ∧
      dir_entry out 1 =
        [byte_of (if (⟨32, 32, [4, 5]⟩ : png_image).width > 255 then 0
            else (⟨32, 32, [4, 5]⟩ : png_image).width),
          byte_of (if (⟨32, 32, [4, 5]⟩ : png_image).height > 255 then 0
            else (⟨32, 32, [4, 5]⟩ : png_image).height), 0, 0, 1, 0, 32, 0] ++
        le_uint32 ((⟨32, 32, [4, 5]⟩ : png_image).buffer.length % 2 ^ 32) ++
        le_uint32 ((6 + 16 * ([⟨64, 64, [1, 2, 3]⟩, ⟨32, 32, [4, 5]⟩] : List png_image).length +
          payload_size (([⟨64, 64, [1, 2, 3]⟩, ⟨32, 32, [4, 5]⟩] : List png_image).take 1))
            % 2 ^ 32) ∧
      entry_size out 1 = some ((⟨32, 32, [4, 5]⟩ : png_image).buffer.length % 2 ^ 32) ∧
      ((⟨32, 32, [4, 5]⟩ : png_image).buffer.length < 2 ^ 32 →
        entry_size out 1 = some (⟨32, 32, [4, 5]⟩ : png_image).buffer.length) ∧
      entry_offset out 1 =
        some ((6 + 16 * ([⟨64, 64, [1, 2, 3]⟩, ⟨32, 32, [4, 5]⟩] : List png_image).length +
          payload_size (([⟨64, 64, [1, 2, 3]⟩, ⟨32, 32, [4, 5]⟩] : List png_image).take 1))
            % 2 ^ 32) :=
  ⟨by decide, by decide,
    dir_entry_layout [⟨64, 64, [1, 2, 3]⟩, ⟨32, 32, [4, 5]⟩] 1 ⟨32, 32, [4, 5]⟩
      (by decide) (by decide)⟩

/-- C4 (counterexample): the entry of a single image of 2^32 bytes holds payload size 0,
not the image's byte length; and for N = 65536 images no entry is written, so the bytes
[6, 22) that entry 0 should occupy do not exist. -/
theorem dir_entry_layout_counterexample :
    (∃ out, write_ico_file true [⟨1, 1, List.replicate 4294967296 0⟩] = .ok out ∧
      entry_size out 0 = some 0 ∧
      (List.replicate 4294967296 (0 : uint8_t)).length = 4294967296) ∧
    (∃ out, write_ico_file true (List.replicate 65536 ⟨2, 2, []⟩) = .ok out ∧
      out.length = 6 ∧ dir_entry out 0 = []) := by
  constructor
  · obtain ⟨out, hok⟩ : ∃ out, write_ico_file true
        [⟨1, 1, List.replicate 4294967296 0⟩] = .ok out := ⟨_, write_ico_file_eq _⟩
    exact ⟨out, hok, entry_size_of_4GiB _ (List.length_replicate _ _) out hok,
      List.length_replicate _ _⟩
  · have hc : (List.replicate 65536 (⟨2, 2, []⟩ : png_image)).length % 65536 = 0 := by
      rw [List.length_replicate]
    have hlen : ([0, 0, 1, 0, 0, 0] : List uint8_t).length = 6 := rfl
    have hnone : dir_entry [0, 0, 1, 0, 0, 0] 0 = [] := rfl
    exact ⟨_, write_ico_file_count_zero _ hc, hlen, hnone⟩

/-- C5 (amended): clamping. For every sequence of N images passed to `write_ico_file` and
every image of it at an index below N mod 65536 (every image when N <= 65535), the
directory width byte is exactly 0 when the image's width is greater than 255 and equals
the width when it is in [0,255]; the same holds independently for the height byte.
Consequently a width of exactly 256 is written as 0, the byte written for a width of 0. -/
theorem dimension_clamp (png : List png_image) (i : Nat) (p : png_image)
    (hi : i < png.length % 65536) (hp : png[i]? = some p) :
    ∃ out wb hb, write_ico_file true png = .ok out ∧
      out[6 + 16 * i]? = some wb ∧ out[6 + 16 * i + 1]? = some hb ∧
      (p.width > 255 → wb.val = 0) ∧ (p.width ≤ 255 → wb.val = p.width) ∧
      (p.height > 255 → hb.val = 0) ∧ (p.height ≤ 255 → hb.val = p.height) ∧
      (p.width = 256 → wb = 0) ∧ (p.width = 0 → wb = 0) := by
  obtain ⟨out, hok⟩ : ∃ out, write_ico_file true png = .ok out := ⟨_, write_ico_file_eq png⟩
  obtain ⟨hw, hh⟩ := dimension_bytes_of_ok png out i p hok hi hp
  refine ⟨out, _, _, hok, hw, hh, ?_, ?_, ?_, ?_, ?_, ?_⟩
  · intro h
    rw [if_pos h]
    rfl
  · intro h
    rw [if_neg (by omega)]
    exact byte_of_val_of_le _ h
  · intro h
    rw [if_pos h]
    rfl
  · intro h
    rw [if_neg (by omega)]
    exact byte_of_val_of_le _ h
  · intro h
    rw [h]
    rfl
  · intro h
    rw [h]
    rfl

/-- C5 (witness): a 300x200 image as the second of two. -/
theorem dimension_clamp_witness :
    1 < ([⟨64, 64, [1, 2, 3]⟩, ⟨300, 200, [4, 5]⟩] : List png_image).length % 65536 ∧
    ([⟨64, 64, [1, 2, 3]⟩, ⟨300, 200, [4, 5]⟩] : List png_image)[1]? =
      some ⟨300, 200, [4, 5]⟩ ∧
    ∃ out wb hb, write_ico_file true [⟨64, 64, [1, 2, 3]⟩, ⟨300, 200, [4, 5]⟩] = .ok out ∧
      out[6 + 16 * 1]? = some wb ∧ out[6 + 16 * 1 + 1]? = some hb ∧
      ((⟨300, 200, [4, 5]⟩ : png_image).width > 255 → wb.val = 0) ∧
      ((⟨300, 200, [4, 5]⟩ : png_image).width ≤ 255 →
        wb.val = (⟨300, 200, [4, 5]⟩ : png_image).width) ∧
      ((⟨300, 200, [4, 5]⟩ : png_image).height > 255 → hb.val = 0) ∧
      ((⟨300, 200, [4, 5]⟩ : png_image).height ≤ 255 →
        hb.val = (⟨300, 200, [4, 5]⟩ : png_image).height) ∧
      ((⟨300, 200, [4, 5]⟩ : png_image).width = 256 → wb = 0) ∧
      ((⟨300, 200, [4, 5]⟩ : png_image).width = 0 → wb = 0) :=
  ⟨by decide, by decide,
    dimension_clamp [⟨64, 64, [1, 2, 3]⟩, ⟨300, 200, [4, 5]⟩] 1 ⟨300, 200, [4, 5]⟩
      (by decide) (by decide)⟩

/-- C5 (counterexample): of 65536 images of width and height 300 passed to
`write_ico_file` none gets a directory entry: the output is the 6 header bytes, and there
is no width byte at offset 6 and no height byte at offset 7 to hold a 0. -/
theorem dimension_clamp_counterexample :
    (List.replicate 65536 (⟨300, 300, []⟩ : png_image))[0]? = some ⟨300, 300, []⟩ ∧
    write_ico_file true (List.replicate 65536 ⟨300, 300, []⟩) = .ok [0, 0, 1, 0, 0, 0] ∧
    ([0, 0, 1, 0, 0, 0] : List uint8_t)[6 + 16 * 0]? = none ∧
    ([0, 0, 1, 0, 0, 0] : List uint8_t)[6 + 16 * 0 + 1]? = none := by
  have hc : (List.replicate 65536 (⟨300, 300, []⟩ : png_image)).length % 65536 = 0 := by
    rw [List.length_replicate]
  have h0 : (List.replicate 65536 (⟨300, 300, []⟩ : png_image))[0]? = some ⟨300, 300, []⟩ := by
    rw [List.getElem?_replicate]
    rfl
  exact ⟨h0, write_ico_file_count_zero _ hc, rfl, rfl⟩

/-! ## The PNG header reader -/

/-- C7: for every file that starts with the 8-byte PNG signature and whose big-endian
32-bit width at offset 16 differs from its big-endian 32-bit height at offset 20, or whose
width is greater than 512, `read_png_file` fails with one of the two constraint
diagnostics and produces no image; and every image that `read_png_file` returns, on any
file, satisfies width == height and width <= 512. -/
theorem constraint_error (u : uninit) (file : List uint8_t) (hlen : 24 ≤ file.length)
    (hsig : file.take 8 = png_signature)
    (hbad : be_uint32_at file 16 ≠ be_uint32_at file 20 ∨ be_uint32_at file 16 > 512) :
    (read_png_file u (some file) = .error .should_be_square ∨
      read_png_file u (some file) = .error .should_be_smaller_than_512) ∧
    (∀ image, read_png_file u (some file) ≠ .ok image) ∧
    (∀ u0 file0 image, read_png_file u0 file0 = .ok image →
      image.width = image.height ∧ image.width ≤ 512) := by
  have hres : read_png_file u (some file) = .error .should_be_square ∨
      read_png_file u (some file) = .error .should_be_smaller_than_512 := by
    rw [read_png_file_long u file hlen]
    by_cases hsq : be_uint32_at file 16 = be_uint32_at file 20
    · have hgt : be_uint32_at file 16 > 512 := by
        rcases hbad with h | h
        · exact absurd hsq h
        · exact h
      right
      rw [if_neg (not_not.mpr hsig), if_neg (not_not.mpr hsq), if_pos hgt]
    · left
      rw [if_neg (not_not.mpr hsig), if_pos hsq]
  refine ⟨hres, ?_, fun u0 file0 image h => read_png_file_ok_checked u0 file0 image h⟩
  intro image himg
  rcases hres with h | h <;> rw [h] at himg <;> cases himg

/-- C7 (witness): a 24-byte file with the signature, width 64 and height 32. -/
theorem constraint_error_witness :
    24 ≤ (png_signature ++ [0, 0, 0, 13, 73, 72, 68, 82, 0, 0, 0, 64, 0, 0, 0, 32]).length ∧
    (png_signature ++ [0, 0, 0, 13, 73, 72, 68, 82, 0, 0, 0, 64, 0, 0, 0, 32]).take 8 =
      png_signature ∧
    (be_uint32_at (png_signature ++ [0, 0, 0, 13, 73, 72, 68, 82, 0, 0, 0, 64, 0, 0, 0, 32]) 16
        ≠ be_uint32_at
          (png_signature ++ [0, 0, 0, 13, 73, 72, 68, 82, 0, 0, 0, 64, 0, 0, 0, 32]) 20 ∨
      be_uint32_at (png_signature ++ [0, 0, 0, 13, 73, 72, 68, 82, 0, 0, 0, 64, 0, 0, 0, 32]) 16
        > 512) ∧
    ((read_png_file ⟨fun _ => 0, fun _ => 0, fun _ => 0⟩
        (some (png_signature ++ [0, 0, 0, 13, 73, 72, 68, 82, 0, 0, 0, 64, 0, 0, 0, 32])) =
          .error .should_be_square ∨
      read_png_file ⟨fun _ => 0, fun _ => 0, fun _ => 0⟩
        (some (png_signature ++ [0, 0, 0, 13, 73, 72, 68, 82, 0, 0, 0, 64, 0, 0, 0, 32])) =
          .error .should_be_smaller_than_512) ∧
    (∀ image, read_png_file ⟨fun _ => 0, fun _ => 0, fun _ => 0⟩
        (some (png_signature ++ [0, 0, 0, 13, 73, 72, 68, 82, 0, 0, 0, 64, 0, 0, 0, 32])) ≠
          .ok image) ∧
    (∀ u0 file0 image, read_png_file u0 file0 = .ok image →
      image.width = image.height ∧ image.width ≤ 512)) :=
  ⟨by decide, by decide, by decide,
    constraint_error ⟨fun _ => 0, fun _ => 0, fun _ => 0⟩
      (png_signature ++ [0, 0, 0, 13, 73, 72, 68, 82, 0, 0, 0, 64, 0, 0, 0, 32])
      (by decide) (by decide) (by decide)⟩

/-- C8 (the code does not do this): the empty file, whose first 8 bytes are not the
signature, is not rejected with the format error when the uninitialised `png_header`
holds the signature bytes and the uninitialised width and height hold zero bytes: the
unchecked `read` leaves `png_header` as it was and `read_png_file` returns a 0 x 0 image;
the same happens for the file that holds the first 7 signature bytes. Every file of at
least 8 bytes whose first 8 bytes differ from 89 50 4E 47 0D 0A 1A 0A, and every shorter
file that is not a truncation of the signature, does fail with "is not a png file",
whatever the rest of the file and the uninitialised locals hold. -/
theorem truncated_signature_not_rejected :
    ([] : List uint8_t).take 8 ≠ png_signature ∧
    read_png_file ⟨fun i => png_signature.getD i 0, fun _ => 0, fun _ => 0⟩ (some []) =
      .ok ⟨0, 0, []⟩ ∧
    (png_signature.take 7).take 8 ≠ png_signature ∧
    read_png_file ⟨fun i => png_signature.getD i 0, fun _ => 0, fun _ => 0⟩
      (some (png_signature.take 7)) = .ok ⟨0, 0, []⟩ ∧
    (∀ u file, 8 ≤ file.length → file.take 8 ≠ png_signature →
      read_png_file u (some file) = .error .is_not_a_png_file) ∧
    (∀ u file, file.length < 8 → ¬ file <+: png_signature →
      read_png_file u (some file) = .error .is_not_a_png_file) :=
  ⟨by decide, rfl, by decide, rfl,
    fun u file h1 h2 => read_png_file_bad_signature u file h1 h2,
    fun u file h1 h2 => read_png_file_short_bad_signature u file h1 h2⟩

/-- C9: for every openable file of at least 24 bytes, `read_png_file` succeeds if and only
if the first 8 bytes equal the PNG signature, the big-endian 32-bit value at offset 16
equals the big-endian 32-bit value at offset 20, and that value is at most 512; so a
512x512 image is accepted, a 513x513 image is rejected and a 0x0 image is accepted. -/
theorem read_png_file_succeeds_iff (u : uninit) (file : List uint8_t)
    (hlen : 24 ≤ file.length) :
    ((∃ image, read_png_file u (some file) = .ok image) ↔
      (file.take 8 = png_signature ∧ be_uint32_at file 16 = be_uint32_at file 20 ∧
        be_uint32_at file 16 ≤ 512)) ∧
    (file.take 8 = png_signature → be_uint32_at file 16 = 512 → be_uint32_at file 20 = 512 →
      read_png_file u (some file) = .ok ⟨512, 512, file⟩) ∧
    (file.take 8 = png_signature → be_uint32_at file 16 = 513 → be_uint32_at file 20 = 513 →
      read_png_file u (some file) = .error .should_be_smaller_than_512) ∧
    (file.take 8 = png_signature → be_uint32_at file 16 = 0 → be_uint32_at file 20 = 0 →
      read_png_file u (some file) = .ok ⟨0, 0, file⟩) := by
  refine ⟨⟨?_, ?_⟩, ?_, ?_, ?_⟩
  · rintro ⟨image, himg⟩
    rw [read_png_file_long u file hlen] at himg
    by_cases hsig : file.take 8 = png_signature
    · by_cases hsq : be_uint32_at file 16 = be_uint32_at file 20
      · by_cases hgt : be_uint32_at file 16 > 512
        · rw [if_neg (not_not.mpr hsig), if_neg (not_not.mpr hsq), if_pos hgt] at himg
          cases himg
        · exact ⟨hsig, hsq, by omega⟩
      · rw [if_neg (not_not.mpr hsig), if_pos hsq] at himg
        cases himg
    · rw [if_pos hsig] at himg
      cases himg
  · rintro ⟨hsig, hsq, hle⟩
    exact ⟨_, read_png_file_valid u file hlen hsig hsq hle⟩
  · intro hsig hw hh
    have := read_png_file_valid u file hlen hsig (by rw [hw, hh]) (by rw [hw])
    rw [hw, hh] at this
    exact this
  · intro hsig hw hh
    rw [read_png_file_long u file hlen, if_neg (not_not.mpr hsig),
      if_neg (not_not.mpr (by rw [hw, hh])), if_pos (by rw [hw]; decide)]
  · intro hsig hw hh
    have := read_png_file_valid u file hlen hsig (by rw [hw, hh]) (by rw [hw]; decide)
    rw [hw, hh] at this
    exact this

/-- C9 (witness): a 24-byte file with the signature and 512 x 512. -/
theorem read_png_file_succeeds_iff_witness :
    24 ≤ (png_signature ++ [0, 0, 0, 13, 73, 72, 68, 82, 0, 0, 2, 0, 0, 0, 2, 0]).length ∧
    (((∃ image, read_png_file ⟨fun _ => 0, fun _ => 0, fun _ => 0⟩
        (some (png_signature ++ [0, 0, 0, 13, 73, 72, 68, 82, 0, 0, 2, 0, 0, 0, 2, 0])) =
          .ok image) ↔
      ((png_signature ++ [0, 0, 0, 13, 73, 72, 68, 82, 0, 0, 2, 0, 0, 0, 2, 0]).take 8 =
          png_signature ∧
        be_uint32_at (png_signature ++ [0, 0, 0, 13, 73, 72, 68, 82, 0, 0, 2, 0, 0, 0, 2, 0]) 16
          = be_uint32_at
            (png_signature ++ [0, 0, 0, 13, 73, 72, 68, 82, 0, 0, 2, 0, 0, 0, 2, 0]) 20 ∧
        be_uint32_at (png_signature ++ [0, 0, 0, 13, 73, 72, 68, 82, 0, 0, 2, 0, 0, 0, 2, 0]) 16
          ≤ 512)) ∧
    ((png_signature ++ [0, 0, 0, 13, 73, 72, 68, 82, 0, 0, 2, 0, 0, 0, 2, 0]).take 8 =
        png_signature →
      be_uint32_at (png_signature ++ [0, 0, 0, 13, 73, 72, 68, 82, 0, 0, 2, 0, 0, 0, 2, 0]) 16
        = 512 →
      be_uint32_at (png_signature ++ [0, 0, 0, 13, 73, 72, 68, 82, 0, 0, 2, 0, 0, 0, 2, 0]) 20
        = 512 →
      read_png_file ⟨fun _ => 0, fun _ => 0, fun _ => 0⟩
        (some (png_signature ++ [0, 0, 0, 13, 73, 72, 68, 82, 0, 0, 2, 0, 0, 0, 2, 0])) =
          .ok ⟨512, 512, png_signature ++ [0, 0, 0, 13, 73, 72, 68, 82, 0, 0, 2, 0, 0, 0, 2, 0]⟩)
    ∧
    ((png_signature ++ [0, 0, 0, 13, 73, 72, 68, 82, 0, 0, 2, 0, 0, 0, 2, 0]).take 8 =
        png_signature →
      be_uint32_at (png_signature ++ [0, 0, 0, 13, 73, 72, 68, 82, 0, 0, 2, 0, 0, 0, 2, 0]) 16
        = 513 →
      be_uint32_at (png_signature ++ [0, 0, 0, 13, 73, 72, 68, 82, 0, 0, 2, 0, 0, 0, 2, 0]) 20
        = 513 →
      read_png_file ⟨fun _ => 0, fun _ => 0, fun _ => 0⟩
        (some (png_signature ++ [0, 0, 0, 13, 73, 72, 68, 82, 0, 0, 2, 0, 0, 0, 2, 0])) =
          .error .should_be_smaller_than_512) ∧
    ((png_signature ++ [0, 0, 0, 13, 73, 72, 68, 82, 0, 0, 2, 0, 0, 0, 2, 0]).take 8 =
        png_signature →
      be_uint32_at (png_signature ++ [0, 0, 0, 13, 73, 72, 68, 82, 0, 0, 2, 0, 0, 0, 2, 0]) 16
        = 0 →
      be_uint32_at (png_signature ++ [0, 0, 0, 13, 73, 72, 68, 82, 0, 0, 2, 0, 0, 0, 2, 0]) 20
        = 0 →
      read_png_file ⟨fun _ => 0, fun _ => 0, fun _ => 0⟩
        (some (png_signature ++ [0, 0, 0, 13, 73, 72, 68, 82, 0, 0, 2, 0, 0, 0, 2, 0])) =
          .ok ⟨0, 0, png_signature ++ [0, 0, 0, 13, 73, 72, 68, 82, 0, 0, 2, 0, 0, 0, 2, 0]⟩)) :=
  ⟨by decide,
    read_png_file_succeeds_iff ⟨fun _ => 0, fun _ => 0, fun _ => 0⟩
      (png_signature ++ [0, 0, 0, 13, 73, 72, 68, 82, 0, 0, 2, 0, 0, 0, 2, 0]) (by decide)⟩

/-- C10: for every valid square PNG file with width == height <= 512, `read_png_file`
returns an image whose bytes are the file (so the bytes at offsets 16..23 exist), whose
width equals the big-endian 32-bit value decoded from the returned bytes at offset 16 and
whose height equals the big-endian 32-bit value decoded from the returned bytes at
offset 20. -/
theorem dimensions_match_buffer (u : uninit) (file : List uint8_t) (hlen : 24 ≤ file.length)
    (hsig : file.take 8 = png_signature)
    (hsq : be_uint32_at file 16 = be_uint32_at file 20) (hle : be_uint32_at file 16 ≤ 512) :
    ∃ image, read_png_file u (some file) = .ok image ∧
      image.buffer = file ∧ 24 ≤ image.buffer.length ∧
      image.width = be_uint32_at image.buffer 16 ∧
      image.height = be_uint32_at image.buffer 20 :=
  ⟨_, read_png_file_valid u file hlen hsig hsq hle, rfl, hlen, rfl, rfl⟩

/-- C10 (witness): a 26-byte file with the signature and 64 x 64. -/
theorem dimensions_match_buffer_witness :
    24 ≤ (png_signature ++ [0, 0, 0, 13, 73, 72, 68, 82, 0, 0, 0, 64, 0, 0, 0, 64, 8, 6]).length
    ∧
    (png_signature ++ [0, 0, 0, 13, 73, 72, 68, 82, 0, 0, 0, 64, 0, 0, 0, 64, 8, 6]).take 8 =
      png_signature ∧
    be_uint32_at (png_signature ++ [0, 0, 0, 13, 73, 72, 68, 82, 0, 0, 0, 64, 0, 0, 0, 64, 8, 6])
        16 =
      be_uint32_at (png_signature ++ [0, 0, 0, 13, 73, 72, 68, 82, 0, 0, 0, 64, 0, 0, 0, 64, 8, 6])
        20 ∧
    be_uint32_at (png_signature ++ [0, 0, 0, 13, 73, 72, 68, 82, 0, 0, 0, 64, 0, 0, 0, 64, 8, 6])
      16 ≤ 512 ∧
    ∃ image, read_png_file ⟨fun _ => 1, fun _ => 2, fun _ => 3⟩
        (some (png_signature ++ [0, 0, 0, 13, 73, 72, 68, 82, 0, 0, 0, 64, 0, 0, 0, 64, 8, 6])) =
          .ok image ∧
      image.buffer =
        png_signature ++ [0, 0, 0, 13, 73, 72, 68, 82, 0, 0, 0, 64, 0, 0, 0, 64, 8, 6] ∧
      24 ≤ image.buffer.length ∧
      image.width = be_uint32_at image.buffer 16 ∧
      image.height = be_uint32_at image.buffer 20 :=
  ⟨by decide, by decide, by decide, by decide,
    dimensions_match_buffer ⟨fun _ => 1, fun _ => 2, fun _ => 3⟩
      (png_signature ++ [0, 0, 0, 13, 73, 72, 68, 82, 0, 0, 0, 64, 0, 0, 0, 64, 8, 6])
      (by decide) (by decide) (by decide) (by decide)⟩

/-! ## The whole conversion -/

/-- C6: end-to-end scenario. For any two files of 500 and 700 bytes that start with the
PNG signature and hold width 64 and height 64, given in that order, `main` (which calls
`read_png_file` on each and then `write_ico_file`) exits with status 0 and writes an
output of exactly 1238 bytes whose header count field is 2, whose first directory entry
has offset 38 and whose second has offset 538; both entries have width byte 64 and height
byte 64. -/
theorem two_icons_scenario (stack : Nat → uninit) (fs : filesystem)
    (prog out a b : String) (f1 f2 : List uint8_t)
    (ha : fs.content a = some f1) (hb : fs.content b = some f2)
    (hout : fs.can_create out = true)
    (hsig1 : f1.take 8 = png_signature) (hw1 : be_uint32_at f1 16 = 64)
    (hh1 : be_uint32_at f1 20 = 64) (hlen1 : f1.length = 500)
    (hsig2 : f2.take 8 = png_signature) (hw2 : be_uint32_at f2 16 = 64)
    (hh2 : be_uint32_at f2 20 = 64) (hlen2 : f2.length = 700) :
    ∃ bytes, main stack fs [prog, out, a, b] = ⟨0, some (out, bytes)⟩ ∧
      write_ico_file true [⟨64, 64, f1⟩, ⟨64, 64, f2⟩] = .ok bytes ∧
      bytes.length = 1238 ∧ header_count bytes = some 2 ∧
      entry_offset bytes 0 = some 38 ∧ entry_offset bytes 1 = some 538 ∧
      bytes[6]? = some 64 ∧ bytes[7]? = some 64 ∧
      bytes[22]? = some 64 ∧ bytes[23]? = some 64 := by
  have hr1 : read_png_file (stack 0) (some f1) = .ok ⟨64, 64, f1⟩ := by
    have := read_png_file_valid (stack 0) f1 (by omega) hsig1 (by rw [hw1, hh1])
      (by rw [hw1]; decide)
    rw [hw1, hh1] at this
    exact this
  have hr2 : read_png_file (stack 1) (some f2) = .ok ⟨64, 64, f2⟩ := by
    have := read_png_file_valid (stack 1) f2 (by omega) hsig2 (by rw [hw2, hh2])
      (by rw [hw2]; decide)
    rw [hw2, hh2] at this
    exact this
  obtain ⟨bytes, hok⟩ : ∃ bytes, write_ico_file true [⟨64, 64, f1⟩, ⟨64, 64, f2⟩] = .ok bytes :=
    ⟨_, write_ico_file_eq _⟩
  have h0 : 0 < ([⟨64, 64, f1⟩, ⟨64, 64, f2⟩] : List png_image).length % 65536 := by
    show 0 < 2 % 65536
    decide
  have h1 : 1 < ([⟨64, 64, f1⟩, ⟨64, 64, f2⟩] : List png_image).length % 65536 := by
    show 1 < 2 % 65536
    decide
  have hmain : main stack fs [prog, out, a, b] = ⟨0, some (out, bytes)⟩ := by
    simp only [main, List.length_cons, List.length_nil, MAX_ICON_COUNT, List.drop_succ_cons,
      List.drop_zero, read_images, ha, hb, hr1, hr2, List.getD_cons_succ, List.getD_cons_zero,
      hout, hok]
    rfl
  have hlen := ok_length _ bytes hok
  have hcnt := header_count_of_ok _ bytes hok
  have ho0 := entry_offset_of_ok _ bytes 0 ⟨64, 64, f1⟩ hok h0 rfl
  have ho1 := entry_offset_of_ok _ bytes 1 ⟨64, 64, f2⟩ hok h1 rfl
  have hd0 := dimension_bytes_of_ok _ bytes 0 ⟨64, 64, f1⟩ hok h0 rfl
  have hd1 := dimension_bytes_of_ok _ bytes 1 ⟨64, 64, f2⟩ hok h1 rfl
  have hp2 : payload_size (([⟨64, 64, f1⟩, ⟨64, 64, f2⟩] : List png_image).take
      (([⟨64, 64, f1⟩, ⟨64, 64, f2⟩] : List png_image).length % 65536)) = 1200 := by
    show f1.length + (f2.length + 0) = 1200
    omega
  have hp0 : payload_size (([⟨64, 64, f1⟩, ⟨64, 64, f2⟩] : List png_image).take 0) = 0 := rfl
  have hp1 : payload_size (([⟨64, 64, f1⟩, ⟨64, 64, f2⟩] : List png_image).take 1) = 500 := by
    show f1.length + 0 = 500
    omega
  have hn : ([⟨64, 64, f1⟩, ⟨64, 64, f2⟩] : List png_image).length % 65536 = 2 := rfl
  rw [hp2, hn] at hlen
  rw [hn] at hcnt
  rw [hp0, hn] at ho0
  rw [hp1, hn] at ho1
  have h64 : byte_of (if 64 > 255 then 0 else 64) = 64 := rfl
  simp only [h64] at hd0 hd1
  exact ⟨bytes, hmain, hok, hlen, hcnt, ho0, ho1, hd0.1, hd0.2, hd1.1, hd1.2⟩

/-- C6 (witness): the sample file system, `png2ico out.ico a.png b.png`. -/
theorem two_icons_scenario_witness :
    sample_fs.content "a.png" = some (sample_file 64 64 476) ∧
    sample_fs.content "b.png" = some (sample_file 64 64 676) ∧
    sample_fs.can_create "out.ico" = true ∧
    (sample_file 64 64 476).take 8 = png_signature ∧
    be_uint32_at (sample_file 64 64 476) 16 = 64 ∧
    be_uint32_at (sample_file 64 64 476) 20 = 64 ∧
    (sample_file 64 64 476).length = 500 ∧
    (sample_file 64 64 676).take 8 = png_signature ∧
    be_uint32_at (sample_file 64 64 676) 16 = 64 ∧
    be_uint32_at (sample_file 64 64 676) 20 = 64 ∧
    (sample_file 64 64 676).length = 700 ∧
    ∃ bytes, main (fun _ => zero_stack) sample_fs ["png2ico", "out.ico", "a.png", "b.png"] =
        ⟨0, some ("out.ico", bytes)⟩ ∧
      write_ico_file true
        [⟨64, 64, sample_file 64 64 476⟩, ⟨64, 64, sample_file 64 64 676⟩] = .ok bytes ∧
      bytes.length = 1238 ∧ header_count bytes = some 2 ∧
      entry_offset bytes 0 = some 38 ∧ entry_offset bytes 1 = some 538 ∧
      bytes[6]? = some 64 ∧ bytes[7]? = some 64 ∧
      bytes[22]? = some 64 ∧ bytes[23]? = some 64 :=
  ⟨rfl, rfl, rfl, by decide, by decide, by decide,
    by simp only [sample_file, png_signature, List.length_append, List.length_cons,
      List.length_nil, List.length_replicate],
    by decide, by decide, by decide,
    by simp only [sample_file, png_signature, List.length_append, List.length_cons,
      List.length_nil, List.length_replicate],
    two_icons_scenario (fun _ => zero_stack) sample_fs "png2ico" "out.ico" "a.png" "b.png"
      (sample_file 64 64 476) (sample_file 64 64 676)
      rfl rfl rfl (by decide) (by decide) (by decide)
      (by simp only [sample_file, png_signature, List.length_append, List.length_cons,
      List.length_nil, List.length_replicate])
      (by decide) (by decide) (by decide)
      (by simp only [sample_file, png_signature, List.length_append, List.length_cons,
      List.length_nil, List.length_replicate])⟩

/-! ## Further lemmas on `swap_uint32` -/

/-- `swap_uint32` on a value given by its four bytes, most significant first. -/
theorem swap_uint32_of_bytes (d c b a : Nat) (hd : d < 256) (hc : c < 256) (hb : b < 256)
    (ha : a < 256) :
    swap_uint32 (d * 16777216 + c * 65536 + b * 256 + a) =
      a * 16777216 + b * 65536 + c * 256 + d := by
  rw [swap_uint32_bytes]
  have h0 : (d * 16777216 + c * 65536 + b * 256 + a) % 256 = a := by omega
  have h1 : (d * 16777216 + c * 65536 + b * 256 + a) / 256 % 256 = b := by omega
  have h2 : (d * 16777216 + c * 65536 + b * 256 + a) / 65536 % 256 = c := by omega
  have h3 : (d * 16777216 + c * 65536 + b * 256 + a) / 16777216 % 256 = d := by omega
  rw [h0, h1, h2, h3]

theorem swap_uint32_lt (v : Nat) : swap_uint32 v < 2 ^ 32 := by
  rw [swap_uint32_bytes]
  omega

theorem swap_uint32_swap_uint32 (v : Nat) : swap_uint32 (swap_uint32 v) = v % 2 ^ 32 := by
  rw [swap_uint32_bytes v, swap_uint32_of_bytes _ _ _ _ (Nat.mod_lt _ (by decide))
    (Nat.mod_lt _ (by decide)) (Nat.mod_lt _ (by decide)) (Nat.mod_lt _ (by decide))]
  omega

/-! ## Further lemmas on the reader -/

/-- A read on a stream whose failbit is set reads nothing. -/
theorem ifstream_read_failed (file : List uint8_t) (pos n : Nat) (eof : Bool) (dst : memory) :
    (ifstream.mk file pos true eof).read dst n = (ifstream.mk file pos true eof, dst) := by
  simp [ifstream.read]

/-- A read of more bytes than the file still has: the stream fails at a position at or
after the end of the file. -/
theorem ifstream_read_short (file : List uint8_t) (pos n : Nat) (dst : memory)
    (hn : 0 < n) (h : file.length < pos + n) :
    ∃ pos2 dst2, file.length ≤ pos2 ∧
      (ifstream.mk file pos false false).read dst n = (ifstream.mk file pos2 true true, dst2) := by
  have hlt : ((file.drop pos).take n).length < n := by
    rw [List.length_take, List.length_drop]
    omega
  refine ⟨pos + ((file.drop pos).take n).length, dst.store ((file.drop pos).take n), ?_, ?_⟩
  · rw [List.length_take, List.length_drop]
    omega
  · simp only [ifstream.read, Bool.or_self, Bool.false_eq_true, if_false, hlt, if_true]

/-- On a file of fewer than 24 bytes one of the reads comes up short, the final `seekg` is
ignored, and a returned buffer is empty. -/
theorem read_png_file_short_buffer (u : uninit) (file : List uint8_t) (image : png_image)
    (hlen : file.length < 24) (h : read_png_file u (some file) = .ok image) :
    image.buffer = [] := by
  have hfinal : ∀ (pos : Nat) (eof : Bool), file.length ≤ pos →
      ((ifstream.mk file pos true eof).seekg ios_beg).rest = [] := by
    intro pos eof hp
    simp only [ifstream.seekg, if_true, ifstream.rest]
    exact List.drop_eq_nil_of_le hp
  simp only [read_png_file, PNG_HEADER_SIZE, PNG_CHUNK_SIZE] at h
  rcases Nat.lt_or_ge file.length 8 with h8 | h8
  · obtain ⟨p1, d1, hp1, hr1⟩ := ifstream_read_short file 0 8 u.png_header (by omega) (by omega)
    rw [hr1] at h
    simp only [ifstream.seekg_cur, if_true, ifstream_read_failed] at h
    split at h
    · cases h
    · split at h
      · cases h
      · split at h
        · cases h
        · injection h with h
          subst h
          exact hfinal p1 false hp1
  · rw [ifstream_read_full file 0 8 _ (by omega)] at h
    simp only [ifstream.seekg_cur, Bool.false_eq_true, if_false] at h
    rcases Nat.lt_or_ge file.length 20 with h20 | h20
    · obtain ⟨p1, d1, hp1, hr1⟩ := ifstream_read_short file (0 + 8 + 8) 4 u.width (by omega) (by omega)
      rw [hr1] at h
      simp only [ifstream_read_failed] at h
      split at h
      · cases h
      · split at h
        · cases h
        · split at h
          · cases h
          · injection h with h
            subst h
            exact hfinal p1 true hp1
    · rw [ifstream_read_full file (0 + 8 + 8) 4 _ (by omega)] at h
      obtain ⟨p1, d1, hp1, hr1⟩ := ifstream_read_short file (0 + 8 + 8 + 4) 4 u.height (by omega) (by omega)
      simp only [] at h
      rw [hr1] at h
      split at h
      · cases h
      · split at h
        · cases h
        · split at h
          · cases h
          · injection h with h
            subst h
            exact hfinal p1 true hp1

theorem read_png_file_long_buffer (u : uninit) (file : List uint8_t) (image : png_image)
    (hlen : 24 ≤ file.length) (h : read_png_file u (some file) = .ok image) :
    image.buffer = file := by
  rw [read_png_file_long u file hlen] at h
  split at h
  · cases h
  · split at h
    · cases h
    · split at h
      · cases h
      · injection h with h
        subst h
        rfl

theorem agree_take (f1 f2 : List uint8_t) (pos n : Nat)
    (h : ∀ i, pos ≤ i → i < pos + n → f1[i]? = f2[i]?) : slice f1 pos n = slice f2 pos n := by
  apply List.ext_getElem?
  intro k
  unfold slice
  by_cases hk : k < n
  · rw [List.getElem?_take_of_lt hk, List.getElem?_take_of_lt hk, List.getElem?_drop,
      List.getElem?_drop]
    exact h (pos + k) (by omega) (by omega)
  · rw [List.getElem?_take, List.getElem?_take, if_neg hk, if_neg hk]

/-! ## Further lemmas on the writer and the decoder -/

theorem decode_payload_of_ok (png : List png_image) (out : List uint8_t) (i : Nat)
    (p : png_image) (hok : write_ico_file true png = .ok out) (hN : png.length ≤ 65535)
    (htot : 6 + 16 * png.length + payload_size png < 2 ^ 32) (hp : png[i]? = some p) :
    entry_offset out i = some (6 + 16 * png.length + payload_size (png.take i)) ∧
    entry_size out i = some p.buffer.length ∧
    6 + 16 * png.length + payload_size (png.take (i + 1)) ≤ out.length ∧
    slice out (6 + 16 * png.length + payload_size (png.take i)) p.buffer.length = p.buffer ∧
    decode_payload out i = some p.buffer := by
  have hc : png.length % 65536 = png.length := Nat.mod_eq_of_lt (by omega)
  have hi : i < png.length := by
    rcases Nat.lt_or_ge i png.length with h | h
    · exact h
    · rw [List.getElem?_eq_none h] at hp
      cases hp
  have hlen := ok_length png out hok
  rw [hc, List.take_length] at hlen
  have hle1 := payload_size_take_le png (i + 1) png.length (by omega)
  rw [List.take_length] at hle1
  have hsucc := payload_size_take_succ png i p hp
  have hoff := entry_offset_of_ok png out i p hok (by omega) hp
  have hsz := entry_size_of_ok png out i p hok (by omega) hp
  have hpay := payload_of_ok png out i p hok (by omega) hp
  rw [hc] at hoff hpay
  rw [Nat.mod_eq_of_lt (by omega)] at hoff hsz
  refine ⟨hoff, hsz, by omega, hpay, ?_⟩
  simp only [decode_payload, hoff, hsz]
  rw [if_pos (by omega), hpay]

theorem decode_entries_of_ok (png : List png_image) (out : List uint8_t)
    (hok : write_ico_file true png = .ok out) (hN : png.length ≤ 65535)
    (htot : 6 + 16 * png.length + payload_size png < 2 ^ 32) (n : Nat) (hn : n ≤ png.length) :
    decode_entries out n = some ((png.take n).map fun p => p.buffer) := by
  induction n with
  | zero => rfl
  | succ n ih =>
    have hlt : n < png.length := by omega
    have hp : png[n]? = some png[n] := List.getElem?_eq_getElem hlt
    have hd := (decode_payload_of_ok png out n png[n] hok hN htot hp).2.2.2.2
    simp only [decode_entries, ih (by omega), hd]
    rw [List.take_succ, hp, List.map_append]
    rfl

/-! ## Lemmas on the command line program -/

theorem considered_inputs (inputs : List String) :
    inputs.take (if (inputs.length + 2) - 2 > MAX_ICON_COUNT then MAX_ICON_COUNT
      else (inputs.length + 2) - 2) = inputs.take 16 := by
  simp only [MAX_ICON_COUNT, Nat.add_sub_cancel]
  split
  · rfl
  · rw [List.take_of_length_le (by omega), List.take_of_length_le (by omega)]

/-- With at least one input, `main` is the loop over the first 16 inputs followed by the
writer. -/
theorem main_eq (stack : Nat → uninit) (fs : filesystem) (prog out : String)
    (inputs : List String) (hn : inputs ≠ []) :
    main stack fs (prog :: out :: inputs) =
      match read_images stack fs (inputs.take 16) 0 with
      | .error _ => ⟨-1, none⟩
      | .ok png =>
        match write_ico_file (fs.can_create out) png with
        | .error _ => ⟨-1, none⟩
        | .ok bytes => ⟨0, some (out, bytes)⟩ := by
  have hlen : 0 < inputs.length := List.length_pos.mpr hn
  have h3 : ¬ (inputs.length + 1 + 1 < 3) := by omega
  have hc := considered_inputs inputs
  simp only [main, List.length_cons, h3, if_false, List.drop_succ_cons, List.drop_zero,
    List.getD_cons_succ, List.getD_cons_zero]
  rw [hc]

theorem main_calls_eq (stack : Nat → uninit) (fs : filesystem) (prog out : String)
    (inputs : List String) (hn : inputs ≠ []) :
    main_calls stack fs (prog :: out :: inputs) =
      read_images_calls stack fs (inputs.take 16) 0 := by
  have hlen : 0 < inputs.length := List.length_pos.mpr hn
  have h3 : ¬ (inputs.length + 1 + 1 < 3) := by omega
  have hc := considered_inputs inputs
  simp only [main_calls, List.length_cons, h3, if_false, List.drop_succ_cons, List.drop_zero]
  rw [hc]

theorem read_images_calls_prefix (stack : Nat → uninit) (fs : filesystem)
    (names : List String) (i : Nat) : read_images_calls stack fs names i <+: names := by
  induction names generalizing i with
  | nil => exact List.prefix_refl _
  | cons name rest ih =>
    simp only [read_images_calls]
    split
    · exact List.prefix_iff_eq_take.mpr rfl
    · exact (List.cons_prefix_cons).mpr ⟨rfl, ih (i + 1)⟩

theorem read_images_congr (stack : Nat → uninit) (fs fs2 : filesystem)
    (names : List String) (i : Nat)
    (h : ∀ name, name ∈ names → fs2.content name = fs.content name) :
    read_images stack fs2 names i = read_images stack fs names i := by
  induction names generalizing i with
  | nil => rfl
  | cons name rest ih =>
    simp only [read_images]
    rw [h name (List.mem_cons_self _ _), ih (i + 1) (fun n hn => h n (List.mem_cons_of_mem _ hn))]

/-- A successful loop called `read_png_file` on every name, each call succeeding. -/
theorem read_images_ok (stack : Nat → uninit) (fs : filesystem) (names : List String)
    (i : Nat) (png : List png_image) (h : read_images stack fs names i = .ok png) :
    png.length = names.length ∧ read_images_calls stack fs names i = names ∧
    ∀ k name, names[k]? = some name →
      ∃ image, read_png_file (stack (i + k)) (fs.content name) = .ok image ∧
        png[k]? = some image := by
  induction names generalizing i png with
  | nil =>
    simp only [read_images] at h
    injection h with h
    subst h
    exact ⟨rfl, rfl, fun k name hk => by simp at hk⟩
  | cons name rest ih =>
    simp only [read_images] at h
    split at h
    · cases h
    · rename_i image himg
      split at h
      · cases h
      · rename_i png2 hrest
        injection h with h
        subst h
        obtain ⟨h1, h2, h3⟩ := ih (i + 1) png2 hrest
        refine ⟨by simp [h1], ?_, ?_⟩
        · simp only [read_images_calls, himg, h2]
        · intro k nm hk
          cases k with
          | zero =>
            simp only [List.getElem?_cons_zero, Option.some.injEq] at hk
            subst hk
            exact ⟨image, himg, List.getElem?_cons_zero⟩
          | succ k =>
            simp only [List.getElem?_cons_succ] at hk
            obtain ⟨img, hi1, hi2⟩ := h3 k nm hk
            refine ⟨img, ?_, by simpa using hi2⟩
            have : i + (k + 1) = i + 1 + k := by omega
            rw [this]
            exact hi1

/-- A failing call ends the loop at the first failing call. -/
theorem read_images_fail (stack : Nat → uninit) (fs : filesystem) (names : List String)
    (i k : Nat) (name : String) (e : png_error) (hk : names[k]? = some name)
    (hfail : read_png_file (stack (i + k)) (fs.content name) = .error e) :
    ∃ k0 name0 e0, k0 ≤ k ∧ names[k0]? = some name0 ∧
      read_png_file (stack (i + k0)) (fs.content name0) = .error e0 ∧
      (∀ j nm, j < k0 → names[j]? = some nm →
        ∃ image, read_png_file (stack (i + j)) (fs.content nm) = .ok image) ∧
      read_images stack fs names i = .error e0 ∧
      read_images_calls stack fs names i = names.take (k0 + 1) := by
  induction names generalizing i k with
  | nil => simp at hk
  | cons first rest ih =>
    cases hfirst : read_png_file (stack i) (fs.content first) with
    | error e1 =>
      refine ⟨0, first, e1, Nat.zero_le _, List.getElem?_cons_zero, hfirst, fun j nm hj _ => by omega, ?_, ?_⟩
      · simp only [read_images, hfirst]
      · simp only [read_images_calls, hfirst, List.take_succ_cons, List.take_zero]
    | ok image =>
      cases k with
      | zero =>
        simp only [List.getElem?_cons_zero, Option.some.injEq] at hk
        subst hk
        rw [Nat.add_zero, hfirst] at hfail
        cases hfail
      | succ k =>
        simp only [List.getElem?_cons_succ] at hk
        have hfail2 : read_png_file (stack (i + 1 + k)) (fs.content name) = .error e := by
          have : i + 1 + k = i + (k + 1) := by omega
          rw [this]
          exact hfail
        obtain ⟨k0, name0, e0, h1, h2, h3, h4, h5, h6⟩ := ih (i + 1) k hk hfail2
        refine ⟨k0 + 1, name0, e0, by omega, by simpa using h2, ?_, ?_, ?_, ?_⟩
        · have : i + (k0 + 1) = i + 1 + k0 := by omega
          rw [this]
          exact h3
        · intro j nm hj hnm
          cases j with
          | zero =>
            simp only [List.getElem?_cons_zero, Option.some.injEq] at hnm
            subst hnm
            exact ⟨image, hfirst⟩
          | succ j =>
            simp only [List.getElem?_cons_succ] at hnm
            obtain ⟨img, himg⟩ := h4 j nm (by omega) hnm
            refine ⟨img, ?_⟩
            have : i + (j + 1) = i + 1 + j := by omega
            rw [this]
            exact himg
        · simp only [read_images, hfirst, h5]
        · simp only [read_images_calls, hfirst, h6, List.take_succ_cons]

/-- The loop on names whose files all pass the checks of `read_png_file`. -/
theorem read_images_valid (stack : Nat → uninit) (fs : filesystem) (names : List String)
    (files : List (List uint8_t)) (i : Nat)
    (hfiles : names.map fs.content = files.map some)
    (hvalid : ∀ f, f ∈ files → 24 ≤ f.length ∧ f.take 8 = png_signature ∧
      be_uint32_at f 16 = be_uint32_at f 20 ∧ be_uint32_at f 16 ≤ 512) :
    read_images stack fs names i = .ok (files.map image_of) := by
  induction names generalizing files i with
  | nil =>
    cases files with
    | nil => rfl
    | cons f fs2 => simp at hfiles
  | cons name rest ih =>
    cases files with
    | nil => simp at hfiles
    | cons f fs2 =>
      simp only [List.map_cons, List.cons.injEq] at hfiles
      obtain ⟨hv1, hv2, hv3, hv4⟩ := hvalid f (List.mem_cons_self _ _)
      simp only [read_images, hfiles.1, read_png_file_valid (stack i) f hv1 hv2 hv3 hv4,
        ih fs2 (i + 1) hfiles.2 (fun g hg => hvalid g (List.mem_cons_of_mem _ hg)),
        List.map_cons, image_of]

theorem getElem?_take_16 (inputs : List String) (k : Nat) (hk : k < 16) :
    (inputs.take 16)[k]? = inputs[k]? := List.getElem?_take_of_lt hk

/-! ## The PNG header reader: buffer and unvalidated bytes -/

/-- C11 (the code does not do this): a file that holds only the 8 signature bytes is
accepted, when the uninitialised width and height hold zero bytes, as a 0 x 0 image whose
buffer is empty, not the 8 bytes of the file. On every file of fewer than 24 bytes a
returned buffer is empty, whatever the uninitialised locals hold; for files of at least
24 bytes the returned buffer is the complete file. -/
theorem truncated_file_buffer :
    read_png_file zero_stack (some png_signature) = .ok ⟨0, 0, []⟩ ∧
    (⟨0, 0, []⟩ : png_image).buffer.length = 0 ∧ png_signature.length = 8 ∧
    (∀ u file image, file.length < 24 → read_png_file u (some file) = .ok image →
      image.buffer = []) ∧
    (∀ u file image, 24 ≤ file.length → read_png_file u (some file) = .ok image →
      image.buffer = file) :=
  ⟨rfl, rfl, rfl, fun u file image h1 h2 => read_png_file_short_buffer u file image h1 h2,
    fun u file image h1 h2 => read_png_file_long_buffer u file image h1 h2⟩

/-- C16: the 8 bytes at file offsets 8..15 are not validated. For any two files of the same
length, at least 24 bytes, that differ only in bytes 8..15, `read_png_file` either fails
on both with the same error or succeeds on both with the same width and height; a file
with the signature whose bytes 12..15 are 58 58 58 58 and not the IHDR tag is accepted. -/
theorem chunk_preamble_not_validated (u1 u2 : uninit) (f1 f2 : List uint8_t)
    (hlen : f1.length = f2.length) (h24 : 24 ≤ f1.length)
    (hagree : ∀ i, i < 8 ∨ 16 ≤ i → f1[i]? = f2[i]?) :
    ((∃ e, read_png_file u1 (some f1) = .error e ∧ read_png_file u2 (some f2) = .error e) ∨
      (∃ image1 image2, read_png_file u1 (some f1) = .ok image1 ∧
        read_png_file u2 (some f2) = .ok image2 ∧
        image1.width = image2.width ∧ image1.height = image2.height)) ∧
    read_png_file zero_stack
      (some (png_signature ++ [0, 0, 0, 13, 88, 88, 88, 88, 0, 0, 0, 64, 0, 0, 0, 64])) =
      .ok ⟨64, 64, png_signature ++ [0, 0, 0, 13, 88, 88, 88, 88, 0, 0, 0, 64, 0, 0, 0, 64]⟩ := by
  refine ⟨?_, rfl⟩
  have hsig : f1.take 8 = f2.take 8 := by
    have := agree_take f1 f2 0 8 (fun i _ hi => hagree i (Or.inl (by omega)))
    rw [slice_zero, slice_zero] at this
    exact this
  have hw : be_uint32_at f1 16 = be_uint32_at f2 16 := by
    unfold be_uint32_at
    rw [agree_take f1 f2 16 4 (fun i hi _ => hagree i (Or.inr hi))]
  have hh : be_uint32_at f1 20 = be_uint32_at f2 20 := by
    unfold be_uint32_at
    rw [agree_take f1 f2 20 4 (fun i hi _ => hagree i (Or.inr (by omega)))]
  have r1 := read_png_file_long u1 f1 h24
  have r2 := read_png_file_long u2 f2 (by omega)
  rw [hsig, hw, hh] at r1
  by_cases h1 : f2.take 8 = png_signature
  · by_cases h2 : be_uint32_at f2 16 = be_uint32_at f2 20
    · by_cases h3 : be_uint32_at f2 16 > 512
      · left
        rw [if_neg (not_not.mpr h1), if_neg (not_not.mpr h2), if_pos h3] at r1 r2
        exact ⟨_, r1, r2⟩
      · right
        rw [if_neg (not_not.mpr h1), if_neg (not_not.mpr h2), if_neg h3] at r1 r2
        exact ⟨_, _, r1, r2, rfl, rfl⟩
    · left
      rw [if_neg (not_not.mpr h1), if_pos h2] at r1 r2
      exact ⟨_, r1, r2⟩
  · left
    rw [if_pos h1] at r1 r2
    exact ⟨_, r1, r2⟩

/-- C16 (witness): two 24-byte 64 x 64 files that differ in all of bytes 8..15. -/
theorem chunk_preamble_not_validated_witness :
    (png_signature ++ [0, 0, 0, 13, 73, 72, 68, 82, 0, 0, 0, 64, 0, 0, 0, 64]).length =
      (png_signature ++ [9, 9, 9, 9, 88, 88, 88, 88, 0, 0, 0, 64, 0, 0, 0, 64]).length ∧
    24 ≤ (png_signature ++ [0, 0, 0, 13, 73, 72, 68, 82, 0, 0, 0, 64, 0, 0, 0, 64]).length ∧
    (∀ i, i < 8 ∨ 16 ≤ i →
      (png_signature ++ [0, 0, 0, 13, 73, 72, 68, 82, 0, 0, 0, 64, 0, 0, 0, 64])[i]? =
        (png_signature ++ [9, 9, 9, 9, 88, 88, 88, 88, 0, 0, 0, 64, 0, 0, 0, 64])[i]?) ∧
    (((∃ e, read_png_file zero_stack
          (some (png_signature ++ [0, 0, 0, 13, 73, 72, 68, 82, 0, 0, 0, 64, 0, 0, 0, 64])) =
            .error e ∧
        read_png_file zero_stack
          (some (png_signature ++ [9, 9, 9, 9, 88, 88, 88, 88, 0, 0, 0, 64, 0, 0, 0, 64])) =
            .error e) ∨
      (∃ image1 image2, read_png_file zero_stack
          (some (png_signature ++ [0, 0, 0, 13, 73, 72, 68, 82, 0, 0, 0, 64, 0, 0, 0, 64])) =
            .ok image1 ∧
        read_png_file zero_stack
          (some (png_signature ++ [9, 9, 9, 9, 88, 88, 88, 88, 0, 0, 0, 64, 0, 0, 0, 64])) =
            .ok image2 ∧
        image1.width = image2.width ∧ image1.height = image2.height)) ∧
    read_png_file zero_stack
      (some (png_signature ++ [0, 0, 0, 13, 88, 88, 88, 88, 0, 0, 0, 64, 0, 0, 0, 64])) =
      .ok ⟨64, 64, png_signature ++ [0, 0, 0, 13, 88, 88, 88, 88, 0, 0, 0, 64, 0, 0, 0, 64]⟩) := by
  have hagree : ∀ i, i < 8 ∨ 16 ≤ i →
      (png_signature ++ [0, 0, 0, 13, 73, 72, 68, 82, 0, 0, 0, 64, 0, 0, 0, 64])[i]? =
        (png_signature ++ [9, 9, 9, 9, 88, 88, 88, 88, 0, 0, 0, 64, 0, 0, 0, 64])[i]? := by
    intro i hi
    rcases Nat.lt_or_ge i 24 with h | h
    · interval_cases i <;> first | rfl | omega
    · rw [List.getElem?_eq_none (by simpa [png_signature] using h),
        List.getElem?_eq_none (by simpa [png_signature] using h)]
  exact ⟨by decide, by decide, hagree,
    chunk_preamble_not_validated zero_stack zero_stack _ _ (by decide) (by decide) hagree⟩

/-! ## The command line program: cap, fail fast, usage -/

/-- C12: cap. For every list of n >= 1 input files, `main` on the list equals `main` on its
first 16 elements; it calls `read_png_file` only on names among the first 16, in
command-line order (on exactly the first min(n, 16) when all are read successfully), and
its result does not depend on the content of any other file. When the first 16 files
pass the reader's checks, the output is what `write_ico_file` writes for their images,
with header count min(n, 16): for 20 inputs the count is 16 and the 16 directory entries
are in the output. -/
theorem input_cap (stack : Nat → uninit) (fs : filesystem) (prog out : String)
    (inputs : List String) (hn : inputs ≠ []) :
    main stack fs (prog :: out :: inputs) = main stack fs (prog :: out :: inputs.take 16) ∧
    main_calls stack fs (prog :: out :: inputs) =
      main_calls stack fs (prog :: out :: inputs.take 16) ∧
    main_calls stack fs (prog :: out :: inputs) <+: inputs.take 16 ∧
    (∀ png, read_images stack fs (inputs.take 16) 0 = .ok png →
      png.length = min inputs.length 16 ∧
      main_calls stack fs (prog :: out :: inputs) = inputs.take 16 ∧
      (∀ k name, k < 16 → inputs[k]? = some name →
        ∃ image, read_png_file (stack k) (fs.content name) = .ok image ∧
          png[k]? = some image) ∧
      main stack fs (prog :: out :: inputs) =
        match write_ico_file (fs.can_create out) png with
        | .error _ => ⟨-1, none⟩
        | .ok bytes => ⟨0, some (out, bytes)⟩) ∧
    (∀ fs2, (∀ name, name ∈ inputs.take 16 → fs2.content name = fs.content name) →
      fs2.can_create out = fs.can_create out →
      main stack fs2 (prog :: out :: inputs) = main stack fs (prog :: out :: inputs)) ∧
    (∀ files : List (List uint8_t), inputs.map fs.content = files.map some →
      (∀ f, f ∈ files.take 16 → 24 ≤ f.length ∧ f.take 8 = png_signature ∧
        be_uint32_at f 16 = be_uint32_at f 20 ∧ be_uint32_at f 16 ≤ 512) →
      fs.can_create out = true →
      ∃ bytes, main stack fs (prog :: out :: inputs) = ⟨0, some (out, bytes)⟩ ∧
        write_ico_file true ((files.take 16).map image_of) = .ok bytes ∧
        header_count bytes = some (min inputs.length 16) ∧
        (inputs.length = 20 → header_count bytes = some 16 ∧ 6 + 16 * 16 ≤ bytes.length)) := by
  have hn16 : inputs.take 16 ≠ [] := by
    cases inputs with
    | nil => exact absurd rfl hn
    | cons a l => simp
  have htt : (inputs.take 16).take 16 = inputs.take 16 := by
    rw [List.take_take, Nat.min_self]
  have hm := main_eq stack fs prog out inputs hn
  have hc := main_calls_eq stack fs prog out inputs hn
  refine ⟨?_, ?_, ?_, ?_, ?_, ?_⟩
  · rw [hm, main_eq stack fs prog out (inputs.take 16) hn16, htt]
  · rw [hc, main_calls_eq stack fs prog out (inputs.take 16) hn16, htt]
  · rw [hc]
    exact read_images_calls_prefix stack fs _ 0
  · intro png hpng
    obtain ⟨h1, h2, h3⟩ := read_images_ok stack fs (inputs.take 16) 0 png hpng
    refine ⟨?_, ?_, ?_, ?_⟩
    · rw [h1, List.length_take, Nat.min_comm]
    · rw [hc, h2]
    · intro k name hk hname
      have := h3 k name (by rw [getElem?_take_16 inputs k hk]; exact hname)
      rw [Nat.zero_add] at this
      exact this
    · rw [hm, hpng]
  · intro fs2 hcontent hcreate
    rw [hm, main_eq stack fs2 prog out inputs hn,
      read_images_congr stack fs fs2 (inputs.take 16) 0 hcontent, hcreate]
  · intro files hfiles hvalid hcreate
    have hfiles16 : (inputs.take 16).map fs.content = (files.take 16).map some := by
      rw [List.map_take, List.map_take, hfiles]
    have hread := read_images_valid stack fs (inputs.take 16) (files.take 16) 0 hfiles16 hvalid
    obtain ⟨bytes, hok⟩ : ∃ bytes,
        write_ico_file true ((files.take 16).map image_of) = .ok bytes :=
      ⟨_, write_ico_file_eq _⟩
    have hlenf : files.length = inputs.length := by
      have := congrArg List.length hfiles
      simp only [List.length_map] at this
      exact this.symm
    have hcount : ((files.take 16).map image_of).length = min inputs.length 16 := by
      rw [List.length_map, List.length_take, hlenf, Nat.min_comm]
    have hhc := header_count_of_ok _ bytes hok
    rw [hcount, Nat.mod_eq_of_lt (by omega)] at hhc
    have hlen := ok_length _ bytes hok
    rw [hcount, Nat.mod_eq_of_lt (by omega)] at hlen
    refine ⟨bytes, ?_, hok, hhc, ?_⟩
    · rw [hm, hread]
      simp only [hcreate, hok]
    · intro h20
      rw [h20] at hhc hlen
      exact ⟨hhc, by rw [hlen]; exact Nat.le_add_right _ _⟩

/-- C12 (witness): twenty inputs that are all 24-byte 64 x 64 files. -/
theorem input_cap_witness :
    twenty_inputs ≠ [] ∧
    main (fun _ => zero_stack) uniform_fs ("png2ico" :: "out.ico" :: twenty_inputs) =
      main (fun _ => zero_stack) uniform_fs ("png2ico" :: "out.ico" :: twenty_inputs.take 16) ∧
    main_calls (fun _ => zero_stack) uniform_fs ("png2ico" :: "out.ico" :: twenty_inputs) <+:
      twenty_inputs.take 16 ∧
    ∃ bytes, main (fun _ => zero_stack) uniform_fs ("png2ico" :: "out.ico" :: twenty_inputs) =
        ⟨0, some ("out.ico", bytes)⟩ ∧
      write_ico_file true (((List.replicate 20 (sample_file 64 64 0)).take 16).map image_of) =
        .ok bytes ∧
      header_count bytes = some 16 ∧ 6 + 16 * 16 ≤ bytes.length := by
  have hne : twenty_inputs ≠ [] := by decide
  obtain ⟨h1, _, h3, _, _, h6⟩ :=
    input_cap (fun _ => zero_stack) uniform_fs "png2ico" "out.ico" twenty_inputs hne
  have hvalid : ∀ f, f ∈ (List.replicate 20 (sample_file 64 64 0)).take 16 →
      24 ≤ f.length ∧ f.take 8 = png_signature ∧
        be_uint32_at f 16 = be_uint32_at f 20 ∧ be_uint32_at f 16 ≤ 512 := by
    intro f hf
    have hf2 : f = sample_file 64 64 0 := List.eq_of_mem_replicate (List.mem_of_mem_take hf)
    rw [hf2]
    decide
  obtain ⟨bytes, hb1, hb2, _, hb4⟩ := h6 (List.replicate 20 (sample_file 64 64 0)) rfl hvalid rfl
  exact ⟨hne, h1, h3, bytes, hb1, hb2, (hb4 rfl).1, (hb4 rfl).2⟩

/-- C13: fail fast. If `read_png_file` fails on one of the first min(n, 16) inputs, `main`
ends with status -1 at the first failing input: the calls of `read_png_file` are exactly
the inputs up to that one, and no output is written whatever file could be created
(`write_ico_file` is not reached). A run that writes an output read every considered
input successfully. -/
theorem fail_fast (stack : Nat → uninit) (fs : filesystem) (prog out : String)
    (inputs : List String) (k : Nat) (name : String) (e : png_error) (hk16 : k < 16)
    (hk : inputs[k]? = some name)
    (hfail : read_png_file (stack k) (fs.content name) = .error e) :
    (∃ k0 name0 e0, k0 ≤ k ∧ inputs[k0]? = some name0 ∧
      read_png_file (stack k0) (fs.content name0) = .error e0 ∧
      (∀ j nm, j < k0 → inputs[j]? = some nm →
        ∃ image, read_png_file (stack j) (fs.content nm) = .ok image) ∧
      main_calls stack fs (prog :: out :: inputs) = inputs.take (k0 + 1)) ∧
    main stack fs (prog :: out :: inputs) = ⟨-1, none⟩ ∧
    (main stack fs (prog :: out :: inputs)).status ≠ 0 ∧
    (∀ can_create, main stack ⟨fs.content, can_create⟩ (prog :: out :: inputs) = ⟨-1, none⟩) ∧
    (∀ fs2 inputs2 status name2 bytes,
      main stack fs2 (prog :: out :: inputs2) = ⟨status, some (name2, bytes)⟩ →
      ∀ j nm, j < 16 → inputs2[j]? = some nm →
        ∃ image, read_png_file (stack j) (fs2.content nm) = .ok image) := by
  have hne : inputs ≠ [] := by
    intro h
    rw [h] at hk
    simp at hk
  have hk2 : (inputs.take 16)[k]? = some name := by rw [getElem?_take_16 inputs k hk16, hk]
  have hfail0 : read_png_file (stack (0 + k)) (fs.content name) = .error e := by
    rw [Nat.zero_add]
    exact hfail
  obtain ⟨k0, name0, e0, h1, h2, h3, h4, h5, h6⟩ :=
    read_images_fail stack fs (inputs.take 16) 0 k name e hk2 hfail0
  have hmain : ∀ can_create, main stack ⟨fs.content, can_create⟩ (prog :: out :: inputs) =
      ⟨-1, none⟩ := by
    intro can_create
    have h5b : read_images stack ⟨fs.content, can_create⟩ (inputs.take 16) 0 = .error e0 := by
      rw [read_images_congr stack fs ⟨fs.content, can_create⟩ _ 0 (fun _ _ => rfl)]
      exact h5
    rw [main_eq stack _ prog out inputs hne, h5b]
  have hm : main stack fs (prog :: out :: inputs) = ⟨-1, none⟩ := hmain fs.can_create
  refine ⟨⟨k0, name0, e0, h1, ?_, ?_, ?_, ?_⟩, hm, ?_, hmain, ?_⟩
  · rw [← getElem?_take_16 inputs k0 (by omega)]
    exact h2
  · rw [Nat.zero_add] at h3
    exact h3
  · intro j nm hj hnm
    have := h4 j nm hj (by rw [getElem?_take_16 inputs j (by omega)]; exact hnm)
    rw [Nat.zero_add] at this
    exact this
  · rw [main_calls_eq stack fs prog out inputs hne, h6, List.take_take,
      Nat.min_eq_left (by omega)]
  · rw [hm]
    decide
  · intro fs2 inputs2 status name2 bytes hrun j nm hj hnm
    have hne2 : inputs2 ≠ [] := by
      intro h
      rw [h] at hnm
      simp at hnm
    rw [main_eq stack fs2 prog out inputs2 hne2] at hrun
    split at hrun
    · cases hrun
    · rename_i png hpng
      have := (read_images_ok stack fs2 (inputs2.take 16) 0 png hpng).2.2 j nm
        (by rw [getElem?_take_16 inputs2 j hj]; exact hnm)
      rw [Nat.zero_add] at this
      obtain ⟨image, himg, _⟩ := this
      exact ⟨image, himg⟩

/-- C13 (witness): the second of three inputs cannot be opened. -/
theorem fail_fast_witness :
    1 < 16 ∧ ["a.png", "missing.png", "b.png"][1]? = some "missing.png" ∧
    read_png_file zero_stack (sample_fs.content "missing.png") = .error .unable_to_open_file ∧
    ((∃ k0 name0 e0, k0 ≤ 1 ∧ ["a.png", "missing.png", "b.png"][k0]? = some name0 ∧
        read_png_file zero_stack (sample_fs.content name0) = .error e0 ∧
        (∀ j nm, j < k0 → ["a.png", "missing.png", "b.png"][j]? = some nm →
          ∃ image, read_png_file zero_stack (sample_fs.content nm) = .ok image) ∧
        main_calls (fun _ => zero_stack) sample_fs
            ["png2ico", "out.ico", "a.png", "missing.png", "b.png"] =
          ["a.png", "missing.png", "b.png"].take (k0 + 1)) ∧
      main (fun _ => zero_stack) sample_fs
          ["png2ico", "out.ico", "a.png", "missing.png", "b.png"] = ⟨-1, none⟩ ∧
      (main (fun _ => zero_stack) sample_fs
          ["png2ico", "out.ico", "a.png", "missing.png", "b.png"]).status ≠ 0 ∧
      (∀ can_create, main (fun _ => zero_stack) ⟨sample_fs.content, can_create⟩
          ["png2ico", "out.ico", "a.png", "missing.png", "b.png"] = ⟨-1, none⟩) ∧
      (∀ fs2 inputs2 status name2 bytes,
        main (fun _ => zero_stack) fs2 ("png2ico" :: "out.ico" :: inputs2) =
          ⟨status, some (name2, bytes)⟩ →
        ∀ j nm, j < 16 → inputs2[j]? = some nm →
          ∃ image, read_png_file zero_stack (fs2.content nm) = .ok image)) :=
  ⟨by decide, rfl, rfl,
    fail_fast (fun _ => zero_stack) sample_fs "png2ico" "out.ico"
      ["a.png", "missing.png", "b.png"] 1 "missing.png" .unable_to_open_file (by decide) rfl rfl⟩

/-- C14: with fewer than 2 arguments after the program name (argc < 3), `main` returns the
nonzero status -1, calls `read_png_file` on no file and writes no output. -/
theorem usage_error (stack : Nat → uninit) (fs : filesystem) (argv : List String)
    (h : argv.length < 3) :
    main stack fs argv = ⟨-1, none⟩ ∧ (main stack fs argv).status ≠ 0 ∧
    (main stack fs argv).written = none ∧ main_calls stack fs argv = [] := by
  have hm : main stack fs argv = ⟨-1, none⟩ := by
    simp only [main, h, if_true]
  have hc : main_calls stack fs argv = [] := by
    simp only [main_calls, h, if_true]
  rw [hm]
  exact ⟨rfl, by decide, rfl, hc⟩

/-- C14 (witness): the program name and an output name only. -/
theorem usage_error_witness :
    ["png2ico", "out.ico"].length < 3 ∧
    (main (fun _ => zero_stack) sample_fs ["png2ico", "out.ico"] = ⟨-1, none⟩ ∧
      (main (fun _ => zero_stack) sample_fs ["png2ico", "out.ico"]).status ≠ 0 ∧
      (main (fun _ => zero_stack) sample_fs ["png2ico", "out.ico"]).written = none ∧
      main_calls (fun _ => zero_stack) sample_fs ["png2ico", "out.ico"] = []) :=
  ⟨by decide, usage_error (fun _ => zero_stack) sample_fs ["png2ico", "out.ico"] (by decide)⟩

/-! ## The byte swap -/

/-- C15: for every 32-bit value with bytes b3 b2 b1 b0 (most significant first),
`swap_uint32` returns the value with bytes b0 b1 b2 b3: it reverses all four bytes and does
not merely swap the 16-bit halves (0x11223344 gives 0x44332211, 0x00000040 gives
0x40000000). -/
theorem swap_uint32_reverses_bytes (b3 b2 b1 b0 : uint8_t) :
    swap_uint32 (b3.val * 2 ^ 24 + b2.val * 2 ^ 16 + b1.val * 2 ^ 8 + b0.val) =
      b0.val * 2 ^ 24 + b1.val * 2 ^ 16 + b2.val * 2 ^ 8 + b3.val ∧
    (∀ v, swap_uint32 v / 2 ^ 24 % 256 = v % 256 ∧
      swap_uint32 v / 2 ^ 16 % 256 = v / 2 ^ 8 % 256 ∧
      swap_uint32 v / 2 ^ 8 % 256 = v / 2 ^ 16 % 256 ∧
      swap_uint32 v % 256 = v / 2 ^ 24 % 256) ∧
    swap_uint32 0x11223344 = 0x44332211 ∧ swap_uint32 0x00000040 = 0x40000000 ∧
    swap_uint32 0x11223344 ≠ 0x33441122 := by
  refine ⟨swap_uint32_of_bytes _ _ _ _ b3.isLt b2.isLt b1.isLt b0.isLt, ?_,
    by decide, by decide, by decide⟩
  intro v
  rw [swap_uint32_bytes]
  have h0 : v % 256 < 256 := Nat.mod_lt _ (by decide)
  have h1 : v / 256 % 256 < 256 := Nat.mod_lt _ (by decide)
  have h2 : v / 65536 % 256 < 256 := Nat.mod_lt _ (by decide)
  have h3 : v / 16777216 % 256 < 256 := Nat.mod_lt _ (by decide)
  simp only [Nat.reducePow]
  generalize v % 256 = x0 at h0 ⊢
  generalize v / 256 % 256 = x1 at h1 ⊢
  generalize v / 65536 % 256 = x2 at h2 ⊢
  generalize v / 16777216 % 256 = x3 at h3 ⊢
  refine ⟨?_, ?_, ?_, ?_⟩ <;> omega

/-- C19: `swap_uint32` is an involution on 32-bit values: for every v below 2^32,
`swap_uint32 (swap_uint32 v) = v`; it maps a 32-bit value to a 32-bit value, no two to
the same one, and every 32-bit value is the image of one. -/
theorem swap_uint32_involution (v : Nat) (h : v < 2 ^ 32) :
    swap_uint32 (swap_uint32 v) = v ∧ swap_uint32 v < 2 ^ 32 ∧
    (∀ w, w < 2 ^ 32 → swap_uint32 v = swap_uint32 w → v = w) ∧
    (∃ w, w < 2 ^ 32 ∧ swap_uint32 w = v) := by
  have hv : swap_uint32 (swap_uint32 v) = v := by
    rw [swap_uint32_swap_uint32, Nat.mod_eq_of_lt h]
  refine ⟨hv, swap_uint32_lt v, ?_, swap_uint32 v, swap_uint32_lt v, hv⟩
  intro w hw heq
  have := congrArg swap_uint32 heq
  rw [hv, swap_uint32_swap_uint32, Nat.mod_eq_of_lt hw] at this
  exact this

/-- C19 (witness): the value 0x11223344. -/
theorem swap_uint32_involution_witness :
    0x11223344 < 2 ^ 32 ∧
    (swap_uint32 (swap_uint32 0x11223344) = 0x11223344 ∧ swap_uint32 0x11223344 < 2 ^ 32 ∧
    (∀ w, w < 2 ^ 32 → swap_uint32 0x11223344 = swap_uint32 w → 0x11223344 = w) ∧
    (∃ w, w < 2 ^ 32 ∧ swap_uint32 w = 0x11223344)) :=
  ⟨by decide, swap_uint32_involution 0x11223344 (by decide)⟩

/-! ## The ICO container writer: count truncation and decoding -/

/-- C17: for every sequence of N images passed to `write_ico_file`, the header count field
holds N mod 65536 and the output is the header, then one directory entry and then one
payload for each of the first N mod 65536 images: that is every image when N <= 65535 and
fewer than N images when N > 65535; for N = 65536 the output is just the 6-byte header
with count 0. -/
theorem header_count_truncates (png : List png_image) :
    ∃ out, write_ico_file true png = .ok out ∧
      header_count out = some (png.length % 65536) ∧
      out = [0, 0, 1, 0, byte_of (png.length % 65536), byte_of (png.length % 65536 / 256)] ++
        write_entries (png.take (png.length % 65536)) (6 + 16 * (png.length % 65536)) ++
        ((png.take (png.length % 65536)).map fun p => p.buffer).flatten ∧
      (write_entries (png.take (png.length % 65536)) (6 + 16 * (png.length % 65536))).length =
        16 * (png.length % 65536) ∧
      out.length = 6 + 16 * (png.length % 65536) +
        payload_size (png.take (png.length % 65536)) ∧
      (∀ i p, i < png.length % 65536 → png[i]? = some p →
        dir_entry out i = (make_entry p
          ((6 + 16 * (png.length % 65536) + payload_size (png.take i)) % 2 ^ 32)).bytes ∧
        slice out (6 + 16 * (png.length % 65536) + payload_size (png.take i))
          p.buffer.length = p.buffer) ∧
      (png.length ≤ 65535 → png.take (png.length % 65536) = png) ∧
      (png.length > 65535 → png.length % 65536 < png.length) ∧
      (png.length = 65536 → out = [0, 0, 1, 0, 0, 0]) := by
  obtain ⟨out, hok⟩ : ∃ out, write_ico_file true png = .ok out := ⟨_, write_ico_file_eq png⟩
  have hform := hok
  rw [write_ico_file_eq, write_images_eq, icon_header_bytes_eq] at hform
  injection hform with hform
  refine ⟨out, hok, header_count_of_ok png out hok, hform.symm, ?_, ok_length png out hok,
    ?_, ?_, ?_, ?_⟩
  · rw [write_entries_length, List.length_take,
      Nat.min_eq_left (Nat.mod_le png.length 65536)]
  · intro i p hi hp
    exact ⟨dir_entry_of_ok png out i p hok hi hp, payload_of_ok png out i p hok hi hp⟩
  · intro h
    rw [Nat.mod_eq_of_lt (by omega), List.take_length]
  · intro h
    omega
  · intro h
    have hz : png.length % 65536 = 0 := by rw [h]
    have := write_ico_file_count_zero png hz
    rw [hok] at this
    injection this

/-- C18: the output of `write_ico_file` is self-describing and lossless for the payloads.
For every sequence of at most 65535 images whose total output length is below 2^32,
decoding the output alone (count from bytes 4..5, size and offset of each entry, then
slicing) recovers exactly the input images' byte sequences in input order; the decoded
ranges start at 6 + 16*count, each starts where the one before ends, they are pairwise
disjoint, and the last ends at the file length. -/
theorem ico_roundtrip (png : List png_image) (hN : png.length ≤ 65535)
    (htot : 6 + 16 * png.length + payload_size png < 2 ^ 32) :
    ∃ out, write_ico_file true png = .ok out ∧
      header_count out = some png.length ∧
      decode_ico out = some (png.map fun p => p.buffer) ∧
      ∃ off : Nat → Nat,
        off 0 = 6 + 16 * png.length ∧ off png.length = out.length ∧
        (∀ i p, png[i]? = some p →
          entry_offset out i = some (off i) ∧ entry_size out i = some p.buffer.length ∧
          slice out (off i) p.buffer.length = p.buffer ∧
          off (i + 1) = off i + p.buffer.length) ∧
        (∀ i j p, i < j → j < png.length → png[i]? = some p →
          off i + p.buffer.length ≤ off j) := by
  have hc : png.length % 65536 = png.length := Nat.mod_eq_of_lt (by omega)
  obtain ⟨out, hok⟩ : ∃ out, write_ico_file true png = .ok out := ⟨_, write_ico_file_eq png⟩
  have hcnt := header_count_of_ok png out hok
  rw [hc] at hcnt
  have hlen := ok_length png out hok
  rw [hc, List.take_length] at hlen
  have hdec : decode_ico out = some (png.map fun p => p.buffer) := by
    simp only [decode_ico, hcnt]
    rw [decode_entries_of_ok png out hok hN htot png.length (Nat.le_refl _), List.take_length]
  refine ⟨out, hok, hcnt, hdec, fun i => 6 + 16 * png.length + payload_size (png.take i),
    ?_, ?_, ?_, ?_⟩
  · show 6 + 16 * png.length + payload_size (png.take 0) = 6 + 16 * png.length
    rw [List.take_zero]
    rfl
  · show 6 + 16 * png.length + payload_size (png.take png.length) = out.length
    rw [List.take_length, hlen]
  · intro i p hp
    obtain ⟨h1, h2, _, h4, _⟩ := decode_payload_of_ok png out i p hok hN htot hp
    refine ⟨h1, h2, h4, ?_⟩
    show 6 + 16 * png.length + payload_size (png.take (i + 1)) =
      6 + 16 * png.length + payload_size (png.take i) + p.buffer.length
    rw [payload_size_take_succ png i p hp]
    omega
  · intro i j p hij hj hp
    show 6 + 16 * png.length + payload_size (png.take i) + p.buffer.length ≤
      6 + 16 * png.length + payload_size (png.take j)
    have h1 := payload_size_take_succ png i p hp
    have h2 := payload_size_take_le png (i + 1) j (by omega)
    omega

/-- C18 (witness): three images of 3, 0 and 2 bytes. -/
theorem ico_roundtrip_witness :
    ([⟨64, 64, [1, 2, 3]⟩, ⟨32, 32, []⟩, ⟨16, 16, [4, 5]⟩] : List png_image).length ≤ 65535 ∧
    6 + 16 * ([⟨64, 64, [1, 2, 3]⟩, ⟨32, 32, []⟩, ⟨16, 16, [4, 5]⟩] : List png_image).length +
      payload_size [⟨64, 64, [1, 2, 3]⟩, ⟨32, 32, []⟩, ⟨16, 16, [4, 5]⟩] < 2 ^ 32 ∧
    ∃ out, write_ico_file true [⟨64, 64, [1, 2, 3]⟩, ⟨32, 32, []⟩, ⟨16, 16, [4, 5]⟩] = .ok out ∧
      header_count out =
        some ([⟨64, 64, [1, 2, 3]⟩, ⟨32, 32, []⟩, ⟨16, 16, [4, 5]⟩] : List png_image).length ∧
      decode_ico out =
        some (([⟨64, 64, [1, 2, 3]⟩, ⟨32, 32, []⟩, ⟨16, 16, [4, 5]⟩] : List png_image).map
          fun p => p.buffer) ∧
      ∃ off : Nat → Nat,
        off 0 = 6 + 16 *
          ([⟨64, 64, [1, 2, 3]⟩, ⟨32, 32, []⟩, ⟨16, 16, [4, 5]⟩] : List png_image).length ∧
        off ([⟨64, 64, [1, 2, 3]⟩, ⟨32, 32, []⟩, ⟨16, 16, [4, 5]⟩] : List png_image).length =
          out.length ∧
        (∀ i p,
          ([⟨64, 64, [1, 2, 3]⟩, ⟨32, 32, []⟩, ⟨16, 16, [4, 5]⟩] : List png_image)[i]? = some p →
          entry_offset out i = some (off i) ∧ entry_size out i = some p.buffer.length ∧
          slice out (off i) p.buffer.length = p.buffer ∧
          off (i + 1) = off i + p.buffer.length) ∧
        (∀ i j p, i < j →
          j < ([⟨64, 64, [1, 2, 3]⟩, ⟨32, 32, []⟩, ⟨16, 16, [4, 5]⟩] : List png_image).length →
          ([⟨64, 64, [1, 2, 3]⟩, ⟨32, 32, []⟩, ⟨16, 16, [4, 5]⟩] : List png_image)[i]? = some p →
          off i + p.buffer.length ≤ off j) :=
  ⟨by decide, by decide,
    ico_roundtrip [⟨64, 64, [1, 2, 3]⟩, ⟨32, 32, []⟩, ⟨16, 16, [4, 5]⟩] (by decide) (by decide)⟩

end Png2Ico
